import Mathlib

/-!
Verification development for the `multiple-prompts` example.

Shallow embedding of `examples/multiple-prompts/multiple-prompts.cpp`.

* `std::string` values are lists of characters (`List Char`); command-line
  arguments are `String`s.
* `int` values are `Int`; the one place where unsigned 64-bit arithmetic and a
  narrowing conversion occur (`n_kv_req`) is written with explicit moduli.
* The library calls made by `main` (tokenizer, sampler, `llama_decode`) are
  parameters of the model; every call `main` makes is recorded in an event
  trace, so that properties about the order and number of calls can be stated.
* The two clock readings of the timing report are parameters; a finite `float`
  is kept as an exact rational, and a division by zero yields `nan` or an infinity.
-/

namespace MultiplePrompts

/-! ## `std::string::find`, `substr`, `erase` -/

/-- Position of the first occurrence of `sep` in `s`, as `s.find(sep)` computes it;
`none` stands for `std::string::npos`. The empty `sep` is found at position 0 of
every string, the empty one included. -/
def find (sep : List Char) : List Char → Option Nat
  | [] => if sep.isPrefixOf [] then some 0 else none
  | c :: t =>
    if sep.isPrefixOf (c :: t) then some 0
    else (find sep t).map (· + 1)

/-- The call `s.substr(0, pos)`. -/
def substr0 (s : List Char) (pos : Nat) : List Char := s.take pos

/-- The call `s.erase(0, n)`. -/
def erase0 (s : List Char) (n : Nat) : List Char := s.drop n

/-- State of the splitting loop of `main` (lines 43-50): the vector `prompts` and
the text left in `params.prompt`. -/
structure SplitState where
  prompts : List (List Char)
  prompt : List Char
  deriving DecidableEq, Repr

/-- One evaluation of the loop condition and, when it holds, of the body:
`none` when `find` returned `npos` (the loop is left). -/
def splitStep (separator : List Char) (st : SplitState) : Option SplitState :=
  match find separator st.prompt with
  | none => none
  | some pos =>
    some { prompts := st.prompts ++ [substr0 st.prompt pos]
           prompt := erase0 st.prompt (pos + separator.length) }

/-- The `while` loop of lines 45-50, run for at most `fuel` evaluations of its
condition; `none` when the loop has not been left by then. -/
def splitLoop (separator : List Char) : Nat → SplitState → Option SplitState
  | 0, _ => none
  | fuel + 1, st =>
    match splitStep separator st with
    | none => some st
    | some st1 => splitLoop separator fuel st1

/-- Lines 43-50 from the initial state: `prompts` empty, `params.prompt = text`. -/
def splitPrompts (separator text : List Char) (fuel : Nat) : Option SplitState :=
  splitLoop separator fuel { prompts := [], prompt := text }

/-! ## Occurrences of a delimiter in a text -/

/-- All positions `i` at which `sep` occurs in `s` (that is, `s` from `i` on starts
with `sep`), in increasing order. Occurrences may overlap. -/
def occurrences (sep : List Char) : List Char → List Nat
  | [] => if sep.isPrefixOf [] then [0] else []
  | c :: t =>
    (if sep.isPrefixOf (c :: t) then [0] else []) ++ (occurrences sep t).map (· + 1)

/-- From a list of occurrence positions in increasing order, the ones met by a
left-to-right scan that resumes right after each occurrence it takes: an
occurrence is taken when it starts at or after `start`, and the scan resumes
`m` characters later (`m` is the length of the delimiter). -/
def scanOccurrences (m : Nat) : Nat → List Nat → List Nat
  | _, [] => []
  | start, o :: rest =>
    if start ≤ o then o :: scanOccurrences m (o + m) rest
    else scanOccurrences m start rest

/-- The pieces of `text` between successive positions of `occs`: the first piece
runs from `start` to the first position, and each next one from `m` characters
after a position to the next position. What follows the last position is not a piece. -/
def piecesBetween (text : List Char) (m : Nat) : Nat → List Nat → List (List Char)
  | _, [] => []
  | start, o :: rest =>
    (text.drop start).take (o - start) :: piecesBetween text m (o + m) rest

/-! ## The `--separator` scan of `argv` (lines 13-30) -/

/-- Outcome of the `--separator` scan. -/
inductive SeparatorScan where
  /-- the statement `separator = argv[i + 1]` was reached with `i + 1 = argc`:
  `argv[argc]` is the null pointer, from which no `std::string` can be made -/
  | nullString
  /-- the loop was left with this `separator`, `argc` and `argv` -/
  | done (separator : String) (argc : Nat) (argv : List String)
  deriving DecidableEq, Repr

/-- The `for` loop of lines 16-30 from index `i` on, for at most `fuel` evaluations
of its condition (`none`: not left by then). `argv` holds the `argc` arguments;
`separator` is still the empty string whenever the condition is evaluated. -/
def separatorLoop (argc : Nat) (argv : List String) : Nat → Nat → Option SeparatorScan
  | 0, _ => none
  | fuel + 1, i =>
    if i < argc then
      if argv.getD i "" = "--separator" then
        match argv.get? (i + 1) with
        | none => some .nullString
        | some value =>
          let argv1 := argv.set i (argv.getD (argc - 2) "")
          let argv2 := argv1.set (i + 1) (argv1.getD (argc - 1) "")
          some (.done value (argc - 2) argv2)
      else separatorLoop argc argv fuel (i + 1)
    else some (.done "" argc argv)

/-- Lines 13-30 on an argument vector: the loop starts at index 1 and `argc`
evaluations of its condition are enough. -/
def parseSeparator (argv : List String) : Option SeparatorScan :=
  separatorLoop argv.length argv argv.length.succ 1

/-- The arguments `gpt_params_parse(argc, argv, params)` is given: the first `argc`
entries of `argv`. -/
def passedArguments : SeparatorScan → List String
  | .nullString => []
  | .done _ argc argv => argv.take argc

/-! ## Integers -/

/-- Conversion of an `int` to `size_t` (64 bits). -/
def toU64 (x : Int) : Nat := (x % (2 ^ 64 : Int)).toNat

/-- Conversion of a `size_t` value to `int` (32 bits, two's complement). -/
def toI32 (n : Nat) : Int :=
  if n % 2 ^ 32 < 2 ^ 31 then ((n % 2 ^ 32 : Nat) : Int)
  else ((n % 2 ^ 32 : Nat) : Int) - (2 ^ 32 : Int)

/-- Line 80: `tokens_list.size() + (n_len - tokens_list.size())`, computed in
`size_t` and stored in an `int`; `size` is `tokens_list.size()`. -/
def n_kv_req (size : Nat) (n_len : Int) : Int :=
  toI32 ((size % 2 ^ 64 + (toU64 n_len + 2 ^ 64 - size % 2 ^ 64) % 2 ^ 64) % 2 ^ 64)

/-! ## Batches, events, sessions -/

/-- A `llama_token`. -/
abbrev Token := Int

/-- One entry of a `llama_batch`, as `llama_batch_add(batch, id, pos, {seq}, logits)`
writes it. -/
structure BatchEntry where
  token : Token
  pos : Int
  seq : Int
  logits : Bool
  deriving DecidableEq, Repr

/-- The calls `main` makes, in the order it makes them. Writes to
`stderr` (`fprintf`, `LOG_TEE`, `llama_print_timings`) are not recorded. -/
inductive Event where
  /-- `llama_new_context_with_model` -/
  | newContext
  /-- `llama_tokenize` -/
  | tokenize
  /-- `llama_batch_init(n_ctx, 0, 1)` -/
  | batchInit (capacity : Int)
  /-- `llama_batch_add` on a batch that holds `held` entries -/
  | batchAdd (held : Nat) (entry : BatchEntry)
  /-- `batch.logits[index] = true` -/
  | setLogits (index : Int)
  /-- `llama_decode(ctx, batch)` on the batch given, with its return value -/
  | decode (batch : List BatchEntry) (ret : Int)
  /-- `llama_sampling_init` -/
  | samplingInit
  /-- `llama_sampling_sample(ctx_sampling, ctx, NULL, index)` and the token returned -/
  | sample (index : Int) (id : Token)
  /-- `llama_sampling_accept` -/
  | accept (id : Token)
  /-- `std::cout << llama_token_to_piece(ctx, id)` -/
  | emit (id : Token)
  /-- `std::cout << std::endl` -/
  | endl
  /-- `llama_batch_clear` -/
  | batchClear
  /-- `llama_batch_free` -/
  | batchFree
  /-- `llama_sampling_free` -/
  | samplingFree
  /-- `llama_kv_cache_clear` -/
  | kvCacheClear
  /-- `llama_free(ctx)` -/
  | contextFree
  /-- `llama_backend_init` -/
  | backendInit
  /-- `llama_load_model_from_file` -/
  | loadModel
  /-- `llama_free_model` -/
  | modelFree
  /-- `llama_backend_free` -/
  | backendFree
  deriving DecidableEq, Repr

/-- The prefill adds of lines 105-108: entry `i` is token `i` at position `i`,
sequence 0, no logits; each add is recorded with the number of entries the batch
holds when it is made. `held` is that number at the start. -/
def prefillAdds : Nat → List Token → List BatchEntry × List Event
  | _, [] => ([], [])
  | held, t :: ts =>
    let e : BatchEntry := { token := t, pos := held, seq := 0, logits := false }
    let r := prefillAdds (held + 1) ts
    (e :: r.1, Event.batchAdd held e :: r.2)

/-- Line 111, `batch.logits[batch.n_tokens - 1] = true`, on the entries of the
batch. With no entry the index is -1, outside the arrays of the batch; the entries
(there are none) are then left as they are, and the write is still recorded in
the trace by `Event.setLogits (-1)`. -/
def markLast : List BatchEntry → List BatchEntry
  | [] => []
  | [e] => [{ e with logits := true }]
  | e :: e2 :: es => e :: markLast (e2 :: es)

/-- The variables of the sample-decode loop, with the number of sampler and decode
calls of the session so far and the trace. -/
structure LoopState where
  n_cur : Int
  n_decode : Int
  batch : List BatchEntry
  samples : Nat
  decodes : Nat
  trace : List Event
  deriving DecidableEq, Repr

/-- How a session ends. -/
inductive SessionEnd where
  /-- `return 1` at line 87 -/
  | capacityError
  /-- `return 1` at line 116 -/
  | prefillFailed
  /-- `return 1` at line 160 -/
  | decodeFailed
  /-- `break` at line 139, then the teardown of lines 175-181 -/
  | stopped
  /-- the loop condition `n_cur <= n_len` was false, then the teardown -/
  | conditionFalse
  deriving DecidableEq, Repr

/-- The `while (n_cur <= n_len)` loop of lines 126-162, for at most `fuel`
evaluations of its condition. `sampler k` is what the `k`-th call of
`llama_sampling_sample` in the session returns and `decodeRet k` what the `k`-th
call of `llama_decode` returns (the prefill is call 0). `n_cur + 1` cannot
overflow: it is computed only when `n_cur < n_len`. -/
def generationLoop (n_len : Int) (eos : Token) (sampler : Nat → Token)
    (decodeRet : Nat → Int) : Nat → LoopState → Option (SessionEnd × LoopState)
  | 0, _ => none
  | fuel + 1, st =>
    if st.n_cur ≤ n_len then
      let id := sampler st.samples
      let sampled : LoopState :=
        { st with
          samples := st.samples + 1
          trace := st.trace ++ [Event.sample ((st.batch.length : Int) - 1) id, Event.accept id] }
      if id = eos ∨ st.n_cur = n_len then
        some (SessionEnd.stopped, { sampled with trace := sampled.trace ++ [Event.endl] })
      else
        let e : BatchEntry := { token := id, pos := st.n_cur, seq := 0, logits := true }
        let ret := decodeRet st.decodes
        let next : LoopState :=
          { n_cur := st.n_cur + 1
            n_decode := st.n_decode + 1
            batch := [e]
            samples := sampled.samples
            decodes := st.decodes + 1
            trace := sampled.trace ++
              [Event.emit id, Event.batchClear, Event.batchAdd 0 e, Event.decode [e] ret] }
        if ret ≠ 0 then some (SessionEnd.decodeFailed, next)
        else generationLoop n_len eos sampler decodeRet fuel next
    else some (SessionEnd.conditionFalse, st)

/-- The teardown of lines 175-181. -/
def teardown : List Event :=
  [Event.batchFree, Event.samplingFree, Event.kvCacheClear, Event.contextFree]

/-- What a session leaves behind: how it ended, the counters and the trace. -/
structure SessionResult where
  ending : SessionEnd
  n_cur : Int
  n_decode : Int
  trace : List Event
  deriving DecidableEq, Repr

/-- The body of the `for (auto &prompt : prompts)` loop (lines 73-181) for one
prompt whose token list is `tokens_list`; `none` when the sample-decode loop has
not been left within `fuel` evaluations of its condition. -/
def session (n_len n_ctx : Int) (eos : Token) (tokens_list : List Token)
    (sampler : Nat → Token) (decodeRet : Nat → Int) (fuel : Nat) : Option SessionResult :=
  let t0 : List Event := [Event.newContext, Event.tokenize]
  if n_kv_req tokens_list.length n_len > n_ctx then
    some { ending := SessionEnd.capacityError, n_cur := 0, n_decode := 0, trace := t0 }
  else
    let adds := prefillAdds 0 tokens_list
    let batch := markLast adds.1
    let ret := decodeRet 0
    let t1 := t0 ++ [Event.batchInit n_ctx] ++ adds.2 ++
      [Event.setLogits ((adds.1.length : Int) - 1), Event.decode batch ret]
    if ret ≠ 0 then
      some { ending := SessionEnd.prefillFailed, n_cur := 0, n_decode := 0, trace := t1 }
    else
      let st : LoopState :=
        { n_cur := batch.length
          n_decode := 0
          batch := batch
          samples := 0
          decodes := 1
          trace := t1 ++ [Event.samplingInit] }
      match generationLoop n_len eos sampler decodeRet fuel st with
      | none => none
      | some (SessionEnd.decodeFailed, s) =>
        some { ending := SessionEnd.decodeFailed, n_cur := s.n_cur, n_decode := s.n_decode,
               trace := s.trace }
      | some (e, s) =>
        some { ending := e, n_cur := s.n_cur, n_decode := s.n_decode,
               trace := s.trace ++ teardown }

/-- The three `return 1` statements inside the per-prompt loop. -/
def SessionEnd.returnsOne : SessionEnd → Bool
  | .capacityError => true
  | .prefillFailed => true
  | .decodeFailed => true
  | .stopped => false
  | .conditionFalse => false

/-- The `for (auto &prompt : prompts)` loop of lines 71-182 followed by lines
184-188, from the `k`-th prompt on: the exit code of `main` and the trace.
`tokenize` is `llama_tokenize` on the prompt text; session `k` has the sampler
`sampler k` and the decode results `decodeRet k`. A session that returns 1 ends the
run there; after the last prompt the model and the backend are freed and `main`
returns 0. -/
def runSessions (n_len n_ctx : Int) (eos : Token) (tokenize : List Char → List Token)
    (sampler : Nat → Nat → Token) (decodeRet : Nat → Nat → Int) (fuel : Nat) :
    Nat → List (List Char) → Option (Int × List Event)
  | _, [] => some (0, [Event.modelFree, Event.backendFree])
  | k, p :: ps =>
    match session n_len n_ctx eos (tokenize p) (sampler k) (decodeRet k) fuel with
    | none => none
    | some r =>
      if r.ending.returnsOne then some (1, r.trace)
      else
        match runSessions n_len n_ctx eos tokenize sampler decodeRet fuel (k + 1) ps with
        | none => none
        | some (code, tr) => some (code, r.trace ++ tr)

/-- The fields of `gpt_params` that `main` reads. -/
structure Params where
  prompt : List Char
  n_predict : Int
  deriving DecidableEq, Repr

/-- What `main` gets from the library and the model. -/
structure Env where
  /-- `gpt_params_parse` on the arguments it is given; `none` when it returns false -/
  gpt_params_parse : List String → Option Params
  /-- whether `llama_load_model_from_file` returns a model -/
  modelLoads : Bool
  /-- `llama_n_ctx(ctx)` -/
  n_ctx : Int
  /-- `llama_token_eos(model)` -/
  eos : Token
  /-- `llama_tokenize(ctx, prompt, true)` -/
  tokenize : List Char → List Token
  /-- `llama_sampling_sample`: session, then call within the session -/
  sampler : Nat → Nat → Token
  /-- `llama_decode`: session, then call within the session -/
  decodeRet : Nat → Nat → Int

/-- How `main` ends. -/
inductive MainResult where
  /-- `--separator` was the last argument: `separator = argv[argc]` -/
  | nullString
  /-- `main` returned `code` after making the calls of `trace` -/
  | returned (code : Int) (trace : List Event)
  deriving DecidableEq, Repr

/-- The function `main`; `none` when one of its `while` loops has not been left
within `fuel` evaluations of its condition. -/
def main (env : Env) (argv : List String) (fuel : Nat) : Option MainResult :=
  match parseSeparator argv with
  | none => none
  | some .nullString => some .nullString
  | some (.done separator argc argv1) =>
    match env.gpt_params_parse (argv1.take argc) with
    | none => some (.returned 1 [])
    | some params =>
      match splitPrompts separator.toList params.prompt fuel with
      | none => none
      | some st =>
        if env.modelLoads then
          match runSessions params.n_predict env.n_ctx env.eos env.tokenize env.sampler
              env.decodeRet fuel 0 st.prompts with
          | none => none
          | some (code, tr) =>
            some (.returned code ([Event.backendInit, Event.loadModel] ++ tr))
        else some (.returned 1 [Event.backendInit, Event.loadModel])

/-! ## A concrete environment -/

/-- An environment for evaluating `main` on concrete inputs: the argument parser
accepts every argument list and yields the given prompt text and `n_predict`, the
model loads, a prompt is tokenized into the codes of its characters, the stop token
is 2, the sampler always returns 7 and every decode call succeeds. -/
def sampleEnv (prompt : List Char) (n_predict n_ctx : Int) : Env :=
  { gpt_params_parse := fun _ => some { prompt := prompt, n_predict := n_predict }
    modelLoads := true
    n_ctx := n_ctx
    eos := 2
    tokenize := fun p => p.map (fun c => (c.toNat : Int))
    sampler := fun _ _ => 7
    decodeRet := fun _ _ => 0 }

/-! ## Reading a trace -/

/-- The tokens written to `stdout`, in order. -/
def emitted : List Event → List Token
  | [] => []
  | Event.emit id :: es => id :: emitted es
  | _ :: es => emitted es

/-- The number of `llama_decode` calls. -/
def decodeCalls : List Event → Nat
  | [] => 0
  | Event.decode _ _ :: es => decodeCalls es + 1
  | _ :: es => decodeCalls es

/-- The number of `llama_sampling_sample` calls. -/
def sampleCalls : List Event → Nat
  | [] => 0
  | Event.sample _ _ :: es => sampleCalls es + 1
  | _ :: es => sampleCalls es

/-! ## States named in the proofs -/

/-- The state after an iteration that does not leave the loop. -/
def nextState (sampler : Nat → Token) (st : LoopState) : LoopState :=
  { n_cur := st.n_cur + 1
    n_decode := st.n_decode + 1
    batch := [{ token := sampler st.samples, pos := st.n_cur, seq := 0, logits := true }]
    samples := st.samples + 1
    decodes := st.decodes + 1
    trace := st.trace ++ [Event.sample ((st.batch.length : Int) - 1) (sampler st.samples),
        Event.accept (sampler st.samples), Event.emit (sampler st.samples), Event.batchClear,
        Event.batchAdd 0
          { token := sampler st.samples, pos := st.n_cur, seq := 0, logits := true },
        Event.decode
          [{ token := sampler st.samples, pos := st.n_cur, seq := 0, logits := true }] 0] }

/-- The state after the iteration that leaves the loop by `break`. -/
def stopState (sampler : Nat → Token) (st : LoopState) : LoopState :=
  { st with
    samples := st.samples + 1
    trace := st.trace ++ [Event.sample ((st.batch.length : Int) - 1) (sampler st.samples),
        Event.accept (sampler st.samples), Event.endl] }

/-- The state in which the sample-decode loop of a session is entered. -/
def initState (n_ctx : Int) (tokens_list : List Token) : LoopState :=
  { n_cur := (markLast (prefillAdds 0 tokens_list).1).length
    n_decode := 0
    batch := markLast (prefillAdds 0 tokens_list).1
    samples := 0
    decodes := 1
    trace := [Event.newContext, Event.tokenize] ++ [Event.batchInit n_ctx] ++
      (prefillAdds 0 tokens_list).2 ++
      [Event.setLogits (((prefillAdds 0 tokens_list).1.length : Int) - 1),
        Event.decode (markLast (prefillAdds 0 tokens_list).1) 0] ++ [Event.samplingInit] }

/-! ## More ways of reading a trace, and the states at the loop head -/

/-- The batches submitted to `llama_decode`, in order. -/
def decodedBatches : List Event → List (List BatchEntry)
  | [] => []
  | Event.decode batch _ :: es => batch :: decodedBatches es
  | _ :: es => decodedBatches es

/-- The positions submitted to `llama_decode` over a trace, in order. -/
def submittedPositions (tr : List Event) : List Int :=
  ((decodedBatches tr).flatten).map (fun e => e.pos)

/-- Every token written to stdout comes right after its acceptance by the sampler,
which comes right after its sampling: the event before an `emit id` is `accept id`
and the one before that is `sample _ id`. -/
def acceptedBeforeEmit (tr : List Event) : Prop :=
  ∀ (i : Nat) (id : Token), tr[i]? = some (Event.emit id) →
    2 ≤ i ∧ tr[i - 1]? = some (Event.accept id) ∧
      ∃ index, tr[i - 2]? = some (Event.sample index id)

/-- The state after an iteration that reaches `llama_decode` (line 157), which
returns `ret`. -/
def stepState (sampler : Nat → Token) (ret : Int) (st : LoopState) : LoopState :=
  { n_cur := st.n_cur + 1
    n_decode := st.n_decode + 1
    batch := [{ token := sampler st.samples, pos := st.n_cur, seq := 0, logits := true }]
    samples := st.samples + 1
    decodes := st.decodes + 1
    trace := st.trace ++ [Event.sample ((st.batch.length : Int) - 1) (sampler st.samples),
        Event.accept (sampler st.samples), Event.emit (sampler st.samples), Event.batchClear,
        Event.batchAdd 0
          { token := sampler st.samples, pos := st.n_cur, seq := 0, logits := true },
        Event.decode
          [{ token := sampler st.samples, pos := st.n_cur, seq := 0, logits := true }] ret] }

/-- The states in which the condition `n_cur <= n_len` of the sample-decode loop is
evaluated, in order, for at most `fuel` evaluations: the loop of `generationLoop`
with its states collected. -/
def loopHeads (n_len : Int) (eos : Token) (sampler : Nat → Token)
    (decodeRet : Nat → Int) : Nat → LoopState → List LoopState
  | 0, _ => []
  | fuel + 1, st =>
    st ::
      (if st.n_cur ≤ n_len then
        if sampler st.samples = eos ∨ st.n_cur = n_len then []
        else if decodeRet st.decodes ≠ 0 then []
        else loopHeads n_len eos sampler decodeRet fuel
          (stepState sampler (decodeRet st.decodes) st)
      else [])

/-! ## The timing report (lines 124, 166-169) -/

/-- The prompts, each followed by the delimiter, and then the remainder. -/
def rejoin (sep : List Char) : List (List Char) → List Char → List Char
  | [], rest => rest
  | p :: ps, rest => p ++ sep ++ rejoin sep ps rest

/-! ## The splitting loop: lemmas -/

theorem occurrences_nil {sep : List Char} (h : sep ≠ []) : occurrences sep [] = [] := by
  cases sep with
  | nil => exact absurd rfl h
  | cons a l => rfl

theorem find_eq_head (sep s : List Char) : find sep s = (occurrences sep s).head? := by
  induction s with
  | nil => unfold find occurrences; split <;> rfl
  | cons c t ih =>
    unfold find occurrences
    split
    · rfl
    · rw [ih]; cases occurrences sep t <;> rfl

theorem occurrences_drop {sep : List Char} (h : sep ≠ []) (s : List Char) (n : Nat) :
    occurrences sep (s.drop n)
      = ((occurrences sep s).filter (fun o => decide (n ≤ o))).map (fun o => o - n) := by
  induction n generalizing s with
  | zero => simp
  | succ n ih =>
    cases s with
    | nil => simp [occurrences_nil h]
    | cons c t =>
      have e : occurrences sep (c :: t)
          = (if sep.isPrefixOf (c :: t) then [0] else []) ++ (occurrences sep t).map (· + 1) := by
        conv => lhs; unfold occurrences
      rw [List.drop_succ_cons, ih t, e, List.filter_append, List.filter_map, List.map_append,
        List.map_map]
      have z : List.filter (fun o => decide (n + 1 ≤ o))
          (if sep.isPrefixOf (c :: t) = true then [0] else []) = [] := by
        split <;> simp
      rw [z]
      simp [Function.comp_def]

theorem scan_filter_le (m : Nat) (l : List Nat) (s t : Nat) (hst : s ≤ t) :
    scanOccurrences m t (l.filter (fun o => decide (s ≤ o))) = scanOccurrences m t l := by
  induction l generalizing s t with
  | nil => rfl
  | cons o rest ih =>
    by_cases h : s ≤ o
    · have e : (o :: rest).filter (fun x => decide (s ≤ x))
          = o :: rest.filter (fun x => decide (s ≤ x)) := by simp [h]
      rw [e]
      by_cases h2 : t ≤ o
      · simp only [scanOccurrences, h2, if_true]
        rw [ih s (o + m) (by omega)]
      · simp only [scanOccurrences, h2, if_false]
        exact ih s t hst
    · have e : (o :: rest).filter (fun x => decide (s ≤ x))
          = rest.filter (fun x => decide (s ≤ x)) := by simp [h]
      have h2 : ¬ t ≤ o := by omega
      rw [e]
      simp only [scanOccurrences, h2, if_false]
      exact ih s t hst

theorem scan_step {sep : List Char} (h : sep ≠ []) (text : List Char) (s : Nat) :
    (find sep (text.drop s) = none →
      scanOccurrences sep.length s (occurrences sep text) = []) ∧
    (∀ pos, find sep (text.drop s) = some pos →
      scanOccurrences sep.length s (occurrences sep text)
        = (s + pos) :: scanOccurrences sep.length (s + pos + sep.length) (occurrences sep text)) := by
  have hm : 0 < sep.length := List.length_pos.mpr h
  rw [find_eq_head, occurrences_drop h, ← scan_filter_le sep.length (occurrences sep text) s s le_rfl]
  generalize hF : (occurrences sep text).filter (fun o => decide (s ≤ o)) = F
  cases F with
  | nil => simp [scanOccurrences]
  | cons o rest =>
    have ho : s ≤ o := by
      have : o ∈ (occurrences sep text).filter (fun o => decide (s ≤ o)) := by rw [hF]; simp
      simpa using (List.mem_filter.mp this).2
    constructor
    · intro hn; simp at hn
    · intro pos hp
      simp at hp
      have e : s + pos = o := by omega
      rw [e]
      simp only [scanOccurrences, ho, if_true]
      congr 1
      rw [← scan_filter_le sep.length (occurrences sep text) s (o + sep.length) (by omega), hF]
      have : ¬ (o + sep.length ≤ o) := by omega
      simp only [scanOccurrences, this, if_false]

theorem piecesBetween_length (text : List Char) (m : Nat) (s : Nat) (l : List Nat) :
    (piecesBetween text m s l).length = l.length := by
  induction l generalizing s with
  | nil => rfl
  | cons o rest ih => simp [piecesBetween, ih]

theorem find_nil {sep : List Char} (h : sep ≠ []) : find sep [] = none := by
  cases sep with
  | nil => exact absurd rfl h
  | cons a l => rfl

theorem splitLoop_scan {sep : List Char} (h : sep ≠ []) (text : List Char) :
    ∀ (n s : Nat) (acc : List (List Char)), (text.drop s).length ≤ n →
      ∃ rest, ∀ fuel, n < fuel →
        splitLoop sep fuel { prompts := acc, prompt := text.drop s }
          = some { prompts := acc ++ piecesBetween text sep.length s
                      (scanOccurrences sep.length s (occurrences sep text))
                   prompt := rest } := by
  have hm : 0 < sep.length := List.length_pos.mpr h
  intro n
  induction n with
  | zero =>
    intro s acc hlen
    have hnil : text.drop s = [] := List.length_eq_zero.mp (Nat.le_zero.mp hlen)
    refine ⟨[], ?_⟩
    intro fuel hf
    obtain ⟨f, rfl⟩ : ∃ f, fuel = f + 1 := ⟨fuel - 1, by omega⟩
    have hfind : find sep (text.drop s) = none := by rw [hnil]; exact find_nil h
    rw [(scan_step h text s).1 hfind]
    simp [splitLoop, splitStep, hnil, find_nil h, piecesBetween]
  | succ n ih =>
    intro s acc hlen
    cases hfind : find sep (text.drop s) with
    | none =>
      refine ⟨text.drop s, ?_⟩
      intro fuel hf
      obtain ⟨f, rfl⟩ : ∃ f, fuel = f + 1 := ⟨fuel - 1, by omega⟩
      rw [(scan_step h text s).1 hfind]
      simp [splitLoop, splitStep, hfind, piecesBetween]
    | some pos =>
      have hne : text.drop s ≠ [] := by
        intro hnil; rw [hnil, find_nil h] at hfind; cases hfind
      have hpos : 0 < (text.drop s).length := List.length_pos.mpr hne
      have hlen2 : (text.drop (s + pos + sep.length)).length ≤ n := by
        simp only [List.length_drop] at hlen hpos ⊢
        omega
      obtain ⟨rest, hrest⟩ := ih (s + pos + sep.length)
        (acc ++ [substr0 (text.drop s) pos]) hlen2
      refine ⟨rest, ?_⟩
      intro fuel hf
      obtain ⟨f, rfl⟩ : ∃ f, fuel = f + 1 := ⟨fuel - 1, by omega⟩
      rw [(scan_step h text s).2 pos hfind]
      have hd : erase0 (text.drop s) (pos + sep.length) = text.drop (s + pos + sep.length) := by
        simp [erase0, List.drop_drop]; congr 1; omega
      simp only [splitLoop, splitStep, hfind, hd]
      rw [hrest f (by omega)]
      simp [piecesBetween, substr0]

theorem scan_all (m : Nat) (s o : Nat) (rest : List Nat) (hs : s ≤ o)
    (hc : List.Chain (fun a b => a + m ≤ b) o rest) :
    scanOccurrences m s (o :: rest) = o :: rest := by
  induction rest generalizing s o with
  | nil => simp [scanOccurrences, hs]
  | cons p rest ih =>
    rw [List.chain_cons] at hc
    simp only [scanOccurrences, hs, if_true]
    have := ih (o + m) p hc.1 hc.2
    simp only [scanOccurrences] at this
    rw [this]

theorem splitLoop_empty_separator (fuel : Nat) (st : SplitState) :
    splitLoop [] fuel st = none := by
  induction fuel generalizing st with
  | zero => rfl
  | succ f ih =>
    have hf : find [] st.prompt = some 0 := by
      cases st.prompt <;> rfl
    simp only [splitLoop, splitStep, hf]
    exact ih _

/-! ## Sessions: lemmas -/

theorem n_kv_req_eq (size : Nat) (n_len : Int) (hlo : -(2 ^ 31 : Int) ≤ n_len)
    (hhi : n_len < (2 ^ 31 : Int)) : n_kv_req size n_len = n_len := by
  unfold n_kv_req toU64 toI32
  have h64 : (2 : Int) ^ 64 = 18446744073709551616 := by norm_num
  have h32 : (2 : Int) ^ 32 = 4294967296 := by norm_num
  have h31 : (2 : Int) ^ 31 = 2147483648 := by norm_num
  have n64 : (2 : Nat) ^ 64 = 18446744073709551616 := by norm_num
  have n32 : (2 : Nat) ^ 32 = 4294967296 := by norm_num
  have n31 : (2 : Nat) ^ 31 = 2147483648 := by norm_num
  rw [h31] at hlo hhi
  simp only [h64, h32, n64, n32, n31]
  split <;> omega

theorem emitted_append (a b : List Event) : emitted (a ++ b) = emitted a ++ emitted b := by
  induction a with
  | nil => rfl
  | cons e es ih => cases e <;> simp [emitted, ih]

theorem decodeCalls_append (a b : List Event) :
    decodeCalls (a ++ b) = decodeCalls a + decodeCalls b := by
  induction a with
  | nil => simp [decodeCalls]
  | cons e es ih => (cases e <;> simp [decodeCalls, ih]); omega

theorem sampleCalls_append (a b : List Event) :
    sampleCalls (a ++ b) = sampleCalls a + sampleCalls b := by
  induction a with
  | nil => simp [sampleCalls]
  | cons e es ih => (cases e <;> simp [sampleCalls, ih]); omega

theorem generationLoop_break (n_len : Int) (eos : Token) (sampler : Nat → Token)
    (decodeRet : Nat → Int) (st : LoopState) (f : Nat) (hc : st.n_cur ≤ n_len)
    (hs : sampler st.samples = eos ∨ st.n_cur = n_len) :
    generationLoop n_len eos sampler decodeRet (f + 1) st
      = some (SessionEnd.stopped, stopState sampler st) := by
  simp [generationLoop, hc, hs, stopState]

theorem generationLoop_continue (n_len : Int) (eos : Token) (sampler : Nat → Token)
    (decodeRet : Nat → Int) (st : LoopState) (f : Nat) (hc : st.n_cur < n_len)
    (hs : sampler st.samples ≠ eos) (hd : decodeRet st.decodes = 0) :
    generationLoop n_len eos sampler decodeRet (f + 1) st
      = generationLoop n_len eos sampler decodeRet f (nextState sampler st) := by
  have h1 : st.n_cur ≤ n_len := le_of_lt hc
  have h2 : ¬ (sampler st.samples = eos ∨ st.n_cur = n_len) := by
    intro h
    cases h with
    | inl h => exact hs h
    | inr h => omega
  simp [generationLoop, h1, h2, hd, nextState]

/-- The loop runs `t` full iterations and leaves by the `break` of the next one. -/
theorem generationLoop_run (n_len : Int) (eos : Token) (sampler : Nat → Token)
    (decodeRet : Nat → Int) (t : Nat) :
    ∀ (st : LoopState), st.n_cur + t ≤ n_len →
      (∀ j, j < t → sampler (st.samples + j) ≠ eos) →
      (∀ j, j < t → decodeRet (st.decodes + j) = 0) →
      (sampler (st.samples + t) = eos ∨ st.n_cur + t = n_len) →
      ∃ st1, (∀ fuel, t < fuel → generationLoop n_len eos sampler decodeRet fuel st
          = some (SessionEnd.stopped, st1)) ∧
        st1.n_cur = st.n_cur + t ∧ st1.n_decode = st.n_decode + t ∧
        emitted st1.trace
          = emitted st.trace ++ (List.range t).map (fun j => sampler (st.samples + j)) ∧
        decodeCalls st1.trace = decodeCalls st.trace + t ∧
        sampleCalls st1.trace = sampleCalls st.trace + t + 1 := by
  induction t with
  | zero =>
    intro st hle _ _ hstop
    have hc : st.n_cur ≤ n_len := by simpa using hle
    have hs : sampler st.samples = eos ∨ st.n_cur = n_len := by simpa using hstop
    refine ⟨stopState sampler st, ?_, ?_, ?_, ?_, ?_, ?_⟩
    · intro fuel hf
      obtain ⟨f, rfl⟩ : ∃ f, fuel = f + 1 := ⟨fuel - 1, by omega⟩
      exact generationLoop_break _ _ _ _ _ _ hc hs
    · simp [stopState]
    · simp [stopState]
    · simp [stopState, emitted_append, emitted]
    · simp [stopState, decodeCalls_append, decodeCalls]
    · simp [stopState, sampleCalls_append, sampleCalls]
  | succ t ih =>
    intro st hle hne hdec hstop
    have hc : st.n_cur < n_len := by push_cast at hle; omega
    have h0 : sampler st.samples ≠ eos := by simpa using hne 0 (by omega)
    have hd : decodeRet st.decodes = 0 := by simpa using hdec 0 (by omega)
    have e1 : ∀ j, (nextState sampler st).samples + j = st.samples + (j + 1) := by
      intro j; simp only [nextState]; omega
    have e2 : ∀ j, (nextState sampler st).decodes + j = st.decodes + (j + 1) := by
      intro j; simp only [nextState]; omega
    obtain ⟨st1, e, a, b, c, d, s⟩ := ih (nextState sampler st)
      (by push_cast at hle; simp only [nextState]; omega)
      (fun j hj => by rw [e1]; exact hne (j + 1) (by omega))
      (fun j hj => by rw [e2]; exact hdec (j + 1) (by omega))
      (by
        cases hstop with
        | inl h => left; rw [e1]; exact h
        | inr h => right; push_cast at h; simp only [nextState]; omega)
    refine ⟨st1, ?_, ?_, ?_, ?_, ?_, ?_⟩
    · intro fuel hf
      obtain ⟨f, rfl⟩ : ∃ f, fuel = f + 1 := ⟨fuel - 1, by omega⟩
      rw [generationLoop_continue _ _ _ _ _ _ hc h0 hd]
      exact e f (by omega)
    · rw [a]; push_cast; simp only [nextState]; omega
    · rw [b]; push_cast; simp only [nextState]; omega
    · rw [c, List.range_succ_eq_map, List.map_cons, List.map_map]
      have : (fun j => sampler ((nextState sampler st).samples + j))
          = (fun j => sampler (st.samples + j)) ∘ Nat.succ := by
        funext j; simp only [Function.comp, e1]
      rw [this]
      simp [nextState, emitted_append, emitted]
    · rw [d]; simp [nextState, decodeCalls_append, decodeCalls]; omega
    · rw [s]; simp [nextState, sampleCalls_append, sampleCalls]; omega

/-! ## The splitting loop: theorems -/

/-- C1 (as stated, refuted): in the text "aaa" the delimiter "aa" occurs twice (at
positions 0 and 1), yet the splitting loop produces one prompt, the empty one,
and leaves "a". -/
theorem split_overlapping_occurrences :
    occurrences ['a', 'a'] ['a', 'a', 'a'] = [0, 1] ∧
    splitPrompts ['a', 'a'] ['a', 'a', 'a'] 4
      = some { prompts := [[]], prompt := ['a'] } := by
  decide

/-- C1 (amended): for every text and every non-empty delimiter the splitting loop
finishes (any fuel above the length of the text is enough) and produces exactly one
prompt per occurrence of the delimiter taken by a left-to-right scan that resumes
right after each occurrence it takes; the prompts are, in order, the pieces of text
between successive taken occurrences, the first from the start of the text, and the
text after the last taken occurrence is not a prompt. When no two occurrences
overlap, the taken occurrences are all the occurrences. For "A|B|C" and "|" the
prompts are ["A", "B"]. -/
theorem split_prompts_between_occurrences :
    (∀ (sep text : List Char), sep ≠ [] →
      ∃ st, (∀ fuel, text.length < fuel → splitPrompts sep text fuel = some st) ∧
        st.prompts = piecesBetween text sep.length 0
          (scanOccurrences sep.length 0 (occurrences sep text)) ∧
        st.prompts.length = (scanOccurrences sep.length 0 (occurrences sep text)).length ∧
        ((occurrences sep text).Chain' (fun a b => a + sep.length ≤ b) →
          scanOccurrences sep.length 0 (occurrences sep text) = occurrences sep text)) ∧
    (∀ fuel, 5 < fuel →
      (splitPrompts ['|'] ['A', '|', 'B', '|', 'C'] fuel).map (·.prompts)
        = some [['A'], ['B']]) := by
  have gen : ∀ (sep text : List Char), sep ≠ [] →
      ∃ st, (∀ fuel, text.length < fuel → splitPrompts sep text fuel = some st) ∧
        st.prompts = piecesBetween text sep.length 0
          (scanOccurrences sep.length 0 (occurrences sep text)) ∧
        st.prompts.length = (scanOccurrences sep.length 0 (occurrences sep text)).length ∧
        ((occurrences sep text).Chain' (fun a b => a + sep.length ≤ b) →
          scanOccurrences sep.length 0 (occurrences sep text) = occurrences sep text) := by
    intro sep text h
    obtain ⟨rest, hrest⟩ := splitLoop_scan h text text.length 0 [] (by simp)
    refine ⟨SplitState.mk (piecesBetween text sep.length 0
        (scanOccurrences sep.length 0 (occurrences sep text))) rest, ?_, rfl, ?_, ?_⟩
    · intro fuel hf
      have := hrest fuel hf
      simpa [splitPrompts] using this
    · simp [piecesBetween_length]
    · intro hc
      cases hocc : occurrences sep text with
      | nil => rfl
      | cons o l =>
        rw [hocc] at hc
        exact scan_all _ 0 o l (Nat.zero_le _) hc
  refine ⟨gen, ?_⟩
  intro fuel hf
  obtain ⟨st, h1, h2, -⟩ := gen ['|'] ['A', '|', 'B', '|', 'C'] (by decide)
  rw [h1 fuel hf, Option.map_some', h2]
  decide

/-- Witness for C1 (amended) at the delimiter "ab" and the text "xabyabz". -/
theorem split_prompts_between_occurrences_witness :
    (['a', 'b'] : List Char) ≠ [] ∧
    ∃ st, (∀ fuel, ['x', 'a', 'b', 'y', 'a', 'b', 'z'].length < fuel →
        splitPrompts ['a', 'b'] ['x', 'a', 'b', 'y', 'a', 'b', 'z'] fuel = some st) ∧
      st.prompts = piecesBetween ['x', 'a', 'b', 'y', 'a', 'b', 'z'] ['a', 'b'].length 0
        (scanOccurrences ['a', 'b'].length 0
          (occurrences ['a', 'b'] ['x', 'a', 'b', 'y', 'a', 'b', 'z'])) ∧
      st.prompts.length = (scanOccurrences ['a', 'b'].length 0
        (occurrences ['a', 'b'] ['x', 'a', 'b', 'y', 'a', 'b', 'z'])).length ∧
      ((occurrences ['a', 'b'] ['x', 'a', 'b', 'y', 'a', 'b', 'z']).Chain'
          (fun a b => a + ['a', 'b'].length ≤ b) →
        scanOccurrences ['a', 'b'].length 0
          (occurrences ['a', 'b'] ['x', 'a', 'b', 'y', 'a', 'b', 'z'])
          = occurrences ['a', 'b'] ['x', 'a', 'b', 'y', 'a', 'b', 'z']) :=
  ⟨by decide, split_prompts_between_occurrences.1 _ _ (by decide)⟩

/-- C7 (the code at the failing input): with the empty delimiter, the default when
`--separator` is not given, the splitting loop is never left: whatever the text and
however many times its condition is evaluated, it has not finished. -/
theorem split_empty_separator_never_finishes (text : List Char) (fuel : Nat) :
    splitPrompts [] text fuel = none :=
  splitLoop_empty_separator fuel _

/-- C7, the half that holds: a non-empty delimiter that does not occur in the text
makes the loop finish at its first test with zero prompts and the text untouched. -/
theorem split_separator_absent (sep text : List Char) (fuel : Nat)
    (h : occurrences sep text = []) :
    splitPrompts sep text (fuel + 1) = some { prompts := [], prompt := text } := by
  have hf : find sep text = none := by rw [find_eq_head, h]; rfl
  simp [splitPrompts, splitLoop, splitStep, hf]

/-! ## Sessions -/

theorem prefillAdds_length (held : Nat) (ts : List Token) :
    (prefillAdds held ts).1.length = ts.length := by
  induction ts generalizing held with
  | nil => rfl
  | cons t ts ih => simp [prefillAdds, ih]

theorem markLast_length (es : List BatchEntry) : (markLast es).length = es.length := by
  induction es with
  | nil => rfl
  | cons e es ih =>
    cases es with
    | nil => rfl
    | cons e2 es => simp only [markLast, List.length_cons] at ih ⊢; omega

theorem prefillAdds_emitted (held : Nat) (ts : List Token) :
    emitted (prefillAdds held ts).2 = [] := by
  induction ts generalizing held with
  | nil => rfl
  | cons t ts ih => simp [prefillAdds, emitted, ih]

theorem prefillAdds_decodeCalls (held : Nat) (ts : List Token) :
    decodeCalls (prefillAdds held ts).2 = 0 := by
  induction ts generalizing held with
  | nil => rfl
  | cons t ts ih => simp [prefillAdds, decodeCalls, ih]

theorem prefillAdds_sampleCalls (held : Nat) (ts : List Token) :
    sampleCalls (prefillAdds held ts).2 = 0 := by
  induction ts generalizing held with
  | nil => rfl
  | cons t ts ih => simp [prefillAdds, sampleCalls, ih]

theorem initState_n_cur (n_ctx : Int) (ts : List Token) :
    (initState n_ctx ts).n_cur = ts.length := by
  simp [initState, markLast_length, prefillAdds_length]

theorem initState_emitted (n_ctx : Int) (ts : List Token) :
    emitted (initState n_ctx ts).trace = [] := by
  simp [initState, emitted_append, emitted, prefillAdds_emitted]

theorem initState_decodeCalls (n_ctx : Int) (ts : List Token) :
    decodeCalls (initState n_ctx ts).trace = 1 := by
  simp [initState, decodeCalls_append, decodeCalls, prefillAdds_decodeCalls]

theorem initState_sampleCalls (n_ctx : Int) (ts : List Token) :
    sampleCalls (initState n_ctx ts).trace = 0 := by
  simp [initState, sampleCalls_append, sampleCalls, prefillAdds_sampleCalls]

theorem teardown_observed :
    emitted teardown = [] ∧ decodeCalls teardown = 0 ∧ sampleCalls teardown = 0 := by
  decide

/-- A session that passes the capacity check and whose prefill is decoded runs the
sample-decode loop from `initState`; when the loop is left without a failed decode the
teardown follows. -/
theorem session_of_loop (n_len n_ctx : Int) (eos : Token) (ts : List Token)
    (sampler : Nat → Token) (decodeRet : Nat → Int) (fuel : Nat)
    (hcap : n_kv_req ts.length n_len ≤ n_ctx) (h0 : decodeRet 0 = 0)
    (e : SessionEnd) (s : LoopState) (he : e ≠ SessionEnd.decodeFailed)
    (hl : generationLoop n_len eos sampler decodeRet fuel (initState n_ctx ts) = some (e, s)) :
    session n_len n_ctx eos ts sampler decodeRet fuel
      = some { ending := e, n_cur := s.n_cur, n_decode := s.n_decode,
               trace := s.trace ++ teardown } := by
  have hc : ¬ (n_kv_req ts.length n_len > n_ctx) := not_lt.mpr hcap
  unfold initState at hl
  simp only [session, hc, if_false, h0, ne_eq, not_true_eq_false, hl]

theorem generationLoop_false (n_len : Int) (eos : Token) (sampler : Nat → Token)
    (decodeRet : Nat → Int) (st : LoopState) (f : Nat) (hc : n_len < st.n_cur) :
    generationLoop n_len eos sampler decodeRet (f + 1) st
      = some (SessionEnd.conditionFalse, st) := by
  have h1 : ¬ st.n_cur ≤ n_len := not_le.mpr hc
  simp [generationLoop, h1]

/-- C2 (as stated, refuted): with three prompt tokens, `n_len = 2` and `n_ctx = 8` the
capacity check passes, every decode succeeds and the sampler never returns the stop
token (it returns 7, the stop token is 2); zero tokens are generated, while
`n_len - prompt_token_count` is -1. -/
theorem budget_counterexample :
    n_kv_req ([10, 11, 12] : List Token).length 2 ≤ 8 ∧
    (session 2 8 2 [10, 11, 12] (fun _ => 7) (fun _ => 0) 4).map (fun r => r.n_decode)
      = some 0 ∧
    (session 2 8 2 [10, 11, 12] (fun _ => 7) (fun _ => 0) 4).map (fun r => r.n_decode)
      ≠ some (2 - (([10, 11, 12] : List Token).length : Int)) := by
  decide

/-- A session that passes the capacity check, whose first `t` sampled tokens are not
the stop token and are all decoded, and whose next iteration leaves the loop. -/
theorem session_run (n_len n_ctx : Int) (eos : Token) (ts : List Token)
    (sampler : Nat → Token) (decodeRet : Nat → Int) (t : Nat)
    (hcap : n_kv_req ts.length n_len ≤ n_ctx)
    (hle : (ts.length : Int) + t ≤ n_len)
    (hne : ∀ j, j < t → sampler j ≠ eos)
    (hdec : ∀ j, j < t + 1 → decodeRet j = 0)
    (hstop : sampler t = eos ∨ (ts.length : Int) + t = n_len) :
    ∃ r, (∀ fuel, t < fuel → session n_len n_ctx eos ts sampler decodeRet fuel = some r) ∧
      r.ending = SessionEnd.stopped ∧ r.n_cur = ts.length + t ∧ r.n_decode = t ∧
      emitted r.trace = (List.range t).map sampler ∧
      decodeCalls r.trace = t + 1 ∧ sampleCalls r.trace = t + 1 := by
  obtain ⟨st1, e, a, b, c, d, s⟩ :=
    generationLoop_run n_len eos sampler decodeRet t (initState n_ctx ts)
      (by rw [initState_n_cur]; exact hle)
      (fun j hj => by simpa [initState] using hne j hj)
      (fun j hj => by
        have := hdec (1 + j) (by omega)
        simpa [initState] using this)
      (by
        rw [initState_n_cur]
        cases hstop with
        | inl h => left; simpa [initState] using h
        | inr h => right; exact h)
  refine ⟨{ ending := SessionEnd.stopped, n_cur := st1.n_cur, n_decode := st1.n_decode,
            trace := st1.trace ++ teardown }, ?_, rfl, ?_, ?_, ?_, ?_, ?_⟩
  · intro fuel hf
    exact session_of_loop n_len n_ctx eos ts sampler decodeRet fuel hcap
      (hdec 0 (by omega)) SessionEnd.stopped st1 (by decide) (e fuel hf)
  · simp only [a, initState_n_cur]
  · simp only [b]; simp [initState]
  · simp only [emitted_append, teardown_observed.1, c, initState_emitted]
    simp [initState]
  · simp only [decodeCalls_append, teardown_observed.2.1, d, initState_decodeCalls]; omega
  · simp only [sampleCalls_append, teardown_observed.2.2, s, initState_sampleCalls]; omega

/-- A session that passes the capacity check with more prompt tokens than `n_len`:
the loop condition is false at once. -/
theorem session_over_budget (n_len n_ctx : Int) (eos : Token) (ts : List Token)
    (sampler : Nat → Token) (decodeRet : Nat → Int)
    (hcap : n_kv_req ts.length n_len ≤ n_ctx) (h0 : decodeRet 0 = 0)
    (hlt : n_len < (ts.length : Int)) :
    ∃ r, (∀ fuel, 0 < fuel → session n_len n_ctx eos ts sampler decodeRet fuel = some r) ∧
      r.ending = SessionEnd.conditionFalse ∧ r.n_cur = ts.length ∧ r.n_decode = 0 ∧
      emitted r.trace = [] ∧ decodeCalls r.trace = 1 ∧ sampleCalls r.trace = 0 := by
  refine ⟨{ ending := SessionEnd.conditionFalse, n_cur := (initState n_ctx ts).n_cur,
            n_decode := (initState n_ctx ts).n_decode,
            trace := (initState n_ctx ts).trace ++ teardown }, ?_, rfl, ?_, ?_, ?_, ?_, ?_⟩
  · intro fuel hf
    obtain ⟨f, rfl⟩ : ∃ f, fuel = f + 1 := ⟨fuel - 1, by omega⟩
    exact session_of_loop n_len n_ctx eos ts sampler decodeRet (f + 1) hcap h0
      SessionEnd.conditionFalse _ (by decide)
      (generationLoop_false _ _ _ _ _ _ (by rw [initState_n_cur]; exact hlt))
  · simp only [initState_n_cur]
  · simp [initState]
  · simp only [emitted_append, teardown_observed.1, initState_emitted]; rfl
  · simp only [decodeCalls_append, teardown_observed.2.1, initState_decodeCalls]
  · simp only [sampleCalls_append, teardown_observed.2.2, initState_sampleCalls]

/-- C2 (amended): for every session that passes the capacity check and whose decode
calls all succeed, if the sampler never returns the stop token then the session ends
(any fuel above `n_len - prompt_token_count` is enough), the number of generated
tokens `n_decode` is the number of tokens written to stdout, and it is
`n_len - prompt_token_count` when the prompt has at most `n_len` tokens and 0 when
it has more. -/
theorem budget_exhaustion (n_len n_ctx : Int) (eos : Token) (tokens_list : List Token)
    (sampler : Nat → Token) (decodeRet : Nat → Int)
    (hcap : n_kv_req tokens_list.length n_len ≤ n_ctx)
    (hdec : ∀ k, decodeRet k = 0) (hs : ∀ k, sampler k ≠ eos) :
    ∃ r, (∀ fuel, (n_len - tokens_list.length).toNat < fuel →
        session n_len n_ctx eos tokens_list sampler decodeRet fuel = some r) ∧
      r.n_decode = (emitted r.trace).length ∧
      ((tokens_list.length : Int) ≤ n_len → r.n_decode = n_len - tokens_list.length) ∧
      (n_len < (tokens_list.length : Int) → r.n_decode = 0) := by
  by_cases hP : (tokens_list.length : Int) ≤ n_len
  · obtain ⟨t, ht⟩ : ∃ t : Nat, (t : Int) = n_len - tokens_list.length :=
      ⟨(n_len - tokens_list.length).toNat, by omega⟩
    obtain ⟨r, hr, -, -, hn, he, -, -⟩ :=
      session_run n_len n_ctx eos tokens_list sampler decodeRet t hcap (by omega)
        (fun j _ => hs j) (fun j _ => hdec j) (Or.inr (by omega))
    refine ⟨r, ?_, ?_, ?_, ?_⟩
    · intro fuel hf
      exact hr fuel (by omega)
    · rw [hn, he]; simp
    · intro _; rw [hn]; exact ht
    · intro h; omega
  · obtain ⟨r, hr, -, -, hn, he, -, -⟩ :=
      session_over_budget n_len n_ctx eos tokens_list sampler decodeRet hcap (hdec 0)
        (by omega)
    refine ⟨r, ?_, ?_, ?_, ?_⟩
    · intro fuel hf
      exact hr fuel (by omega)
    · rw [hn, he]; simp
    · intro h; exact absurd h hP
    · intro _; exact hn

/-- Witness for C2 (amended): three prompt tokens, `n_len = 5`, `n_ctx = 8`, a sampler
that always returns 7 and the stop token 2. -/
theorem budget_exhaustion_witness :
    n_kv_req ([10, 11, 12] : List Token).length 5 ≤ 8 ∧
    ∃ r, (∀ fuel, ((5 : Int) - ([10, 11, 12] : List Token).length).toNat < fuel →
        session 5 8 2 [10, 11, 12] (fun _ => 7) (fun _ => 0) fuel = some r) ∧
      r.n_decode = (emitted r.trace).length ∧
      ((([10, 11, 12] : List Token).length : Int) ≤ 5 →
        r.n_decode = 5 - ([10, 11, 12] : List Token).length) ∧
      ((5 : Int) < (([10, 11, 12] : List Token).length : Int) → r.n_decode = 0) :=
  ⟨by decide,
   budget_exhaustion 5 8 2 [10, 11, 12] (fun _ => 7) (fun _ => 0) (by decide)
    (fun _ => rfl) (fun _ => show (7 : Int) ≠ 2 by decide)⟩

/-- A session that passes the capacity check and whose prefill decode fails returns 1
at line 116 after that one decode call. -/
theorem session_prefill_failed (n_len n_ctx : Int) (eos : Token) (ts : List Token)
    (sampler : Nat → Token) (decodeRet : Nat → Int)
    (hcap : n_kv_req ts.length n_len ≤ n_ctx) (h0 : decodeRet 0 ≠ 0) :
    ∃ r, (∀ fuel, session n_len n_ctx eos ts sampler decodeRet fuel = some r) ∧
      r.ending = SessionEnd.prefillFailed ∧ r.n_decode = 0 ∧
      emitted r.trace = [] ∧ decodeCalls r.trace = 1 ∧ sampleCalls r.trace = 0 := by
  have hc : ¬ (n_kv_req ts.length n_len > n_ctx) := not_lt.mpr hcap
  refine ⟨{ ending := SessionEnd.prefillFailed, n_cur := 0, n_decode := 0,
            trace := [Event.newContext, Event.tokenize] ++ [Event.batchInit n_ctx] ++
              (prefillAdds 0 ts).2 ++
              [Event.setLogits (((prefillAdds 0 ts).1.length : Int) - 1),
                Event.decode (markLast (prefillAdds 0 ts).1) (decodeRet 0)] }, ?_, ?_⟩
  · intro fuel
    simp only [session, hc, if_false, ne_eq, h0, not_false_eq_true, if_true]
  · simp [emitted_append, emitted, prefillAdds_emitted, decodeCalls_append, decodeCalls,
      prefillAdds_decodeCalls, sampleCalls_append, sampleCalls, prefillAdds_sampleCalls]

/-- C3: for every session that reaches sampling (it passes the capacity check) and
whose decode calls succeed, and every `t < n_len - prompt_token_count`, if the first
`t` sampled tokens are not the stop token and the next sampled token is the stop
token, then the session ends (any fuel above `t` is enough) by the `break`, with
`n_decode = t`; the tokens written to stdout are exactly the first `t` sampled tokens
in order, and the stop token is not among them. -/
theorem stop_token_ends_generation (n_len n_ctx : Int) (eos : Token)
    (tokens_list : List Token) (sampler : Nat → Token) (decodeRet : Nat → Int) (t : Nat)
    (hcap : n_kv_req tokens_list.length n_len ≤ n_ctx)
    (hdec : ∀ k, decodeRet k = 0)
    (ht : (t : Int) < n_len - tokens_list.length)
    (hne : ∀ j, j < t → sampler j ≠ eos) (heos : sampler t = eos) :
    ∃ r, (∀ fuel, t < fuel →
        session n_len n_ctx eos tokens_list sampler decodeRet fuel = some r) ∧
      r.ending = SessionEnd.stopped ∧ r.n_decode = t ∧
      emitted r.trace = (List.range t).map sampler ∧
      (emitted r.trace).length = t ∧ eos ∉ emitted r.trace := by
  obtain ⟨r, hr, hend, -, hn, he, -, -⟩ :=
    session_run n_len n_ctx eos tokens_list sampler decodeRet t hcap (by omega)
      hne (fun j _ => hdec j) (Or.inl heos)
  refine ⟨r, hr, hend, hn, he, by rw [he]; simp, ?_⟩
  rw [he]
  intro hmem
  obtain ⟨j, hj, hje⟩ := List.mem_map.mp hmem
  exact hne j (List.mem_range.mp hj) hje

/-- Witness for C3: three prompt tokens, `n_len = 8`, `n_ctx = 8`, the stop token 2
sampled after the two tokens 7 and 9. -/
theorem stop_token_ends_generation_witness :
    n_kv_req ([10, 11, 12] : List Token).length 8 ≤ 8 ∧
    ((2 : Nat) : Int) < 8 - (([10, 11, 12] : List Token).length : Int) ∧
    ∃ r, (∀ fuel, 2 < fuel →
        session 8 8 2 [10, 11, 12] (fun k => if k = 0 then 7 else if k = 1 then 9 else 2)
          (fun _ => 0) fuel = some r) ∧
      r.ending = SessionEnd.stopped ∧ r.n_decode = (2 : Nat) ∧
      emitted r.trace
        = (List.range 2).map (fun k => if k = 0 then 7 else if k = 1 then 9 else 2) ∧
      (emitted r.trace).length = 2 ∧ (2 : Token) ∉ emitted r.trace :=
  ⟨by decide, by decide,
   stop_token_ends_generation 8 8 2 [10, 11, 12]
    (fun k => if k = 0 then 7 else if k = 1 then 9 else 2) (fun _ => 0) 2
    (by decide) (fun _ => rfl) (by decide)
    (fun j hj => by
      have : j = 0 ∨ j = 1 := by omega
      cases this with
      | inl h => subst h; decide
      | inr h => subst h; decide)
    (by decide)⟩

/-- C4 (amended): for every session with `prompt_token_count = n_len` and `n_len <= n_ctx`,
whatever the sampler returns and whatever the decode calls return, the session ends
(fuel 1 is enough) with zero tokens generated and none written to stdout, after
exactly one `llama_decode` call, the prefill; when that call succeeds the session
ends by the `break` of the first iteration, after exactly one sampler call. -/
theorem prompt_at_budget (n_len n_ctx : Int) (eos : Token) (tokens_list : List Token)
    (sampler : Nat → Token) (decodeRet : Nat → Int)
    (hlen : (tokens_list.length : Int) = n_len) (hctx : n_len ≤ n_ctx)
    (hint : n_len < (2 ^ 31 : Int)) :
    ∃ r, (∀ fuel, 0 < fuel →
        session n_len n_ctx eos tokens_list sampler decodeRet fuel = some r) ∧
      r.n_decode = 0 ∧ emitted r.trace = [] ∧ decodeCalls r.trace = 1 ∧
      (decodeRet 0 = 0 → r.ending = SessionEnd.stopped ∧ sampleCalls r.trace = 1) := by
  have hcap : n_kv_req tokens_list.length n_len ≤ n_ctx := by
    rw [n_kv_req_eq _ _ (by omega) hint]; exact hctx
  by_cases h0 : decodeRet 0 = 0
  · obtain ⟨r, hr, hend, -, hn, he, hd, hs⟩ :=
      session_run n_len n_ctx eos tokens_list sampler decodeRet 0 hcap (by simp [hlen])
        (fun j hj => absurd hj (Nat.not_lt_zero j))
        (fun j hj => by
          have : j = 0 := by omega
          rw [this]; exact h0)
        (Or.inr (by simp [hlen]))
    exact ⟨r, hr, by simpa using hn, by simpa using he, by simpa using hd,
      fun _ => ⟨hend, by simpa using hs⟩⟩
  · obtain ⟨r, hr, -, hn, he, hd, -⟩ :=
      session_prefill_failed n_len n_ctx eos tokens_list sampler decodeRet hcap h0
    exact ⟨r, fun fuel _ => hr fuel, hn, he, hd, fun h => absurd h h0⟩

/-- Witness for C4: three prompt tokens, `n_len = 3`, `n_ctx = 8`. -/
theorem prompt_at_budget_witness :
    ((([10, 11, 12] : List Token).length : Int) = 3 ∧ (3 : Int) ≤ 8 ∧
      (3 : Int) < (2 ^ 31 : Int)) ∧
    ∃ r, (∀ fuel, 0 < fuel →
        session 3 8 2 [10, 11, 12] (fun _ => 7) (fun _ => 0) fuel = some r) ∧
      r.n_decode = 0 ∧ emitted r.trace = [] ∧ decodeCalls r.trace = 1 ∧
      ((fun _ => 0 : Nat → Int) 0 = 0 → r.ending = SessionEnd.stopped ∧
        sampleCalls r.trace = 1) :=
  ⟨by decide,
   prompt_at_budget 3 8 2 [10, 11, 12] (fun _ => 7) (fun _ => 0) (by decide) (by decide)
    (by decide)⟩

/-! ## The run -/

theorem runSessions_capacity (n_len n_ctx : Int) (eos : Token)
    (tokenize : List Char → List Token) (sampler : Nat → Nat → Token)
    (decodeRet : Nat → Nat → Int) (fuel k : Nat) (p : List Char) (ps : List (List Char))
    (hlo : -(2 ^ 31 : Int) ≤ n_len) (hhi : n_len < (2 ^ 31 : Int)) (hcap : n_len > n_ctx) :
    runSessions n_len n_ctx eos tokenize sampler decodeRet fuel k (p :: ps)
      = some (1, [Event.newContext, Event.tokenize]) := by
  have h : n_kv_req (tokenize p).length n_len > n_ctx := by
    rw [n_kv_req_eq _ _ hlo hhi]; exact hcap
  simp [runSessions, session, h, SessionEnd.returnsOne]

/-- C5 (as stated, refuted): the arguments parse, the model loads and
`n_len = 5 > n_ctx = 4`, but the delimiter "|" does not occur in the text "abc", so
there is no prompt and no session: the capacity check is never made and `main`
returns 0. -/
theorem capacity_unchecked_without_prompts :
    (sampleEnv ['a', 'b', 'c'] 5 4).n_ctx < 5 ∧
    main (sampleEnv ['a', 'b', 'c'] 5 4) ["prog", "--separator", "|"] 10
      = some (MainResult.returned 0
          [Event.backendInit, Event.loadModel, Event.modelFree, Event.backendFree]) := by
  decide

/-- C5 (amended): for every run whose arguments parse, whose model loads and whose
splitting loop yields at least one prompt, if the configured total length `n_len`
(an `int`) is greater than the cache capacity `n_ctx` then `main` returns exit code
1 and no `llama_decode` call is issued during the run. -/
theorem capacity_error_exit (env : Env) (argv : List String) (fuel : Nat)
    (separator : String) (argc : Nat) (argv1 : List String) (params : Params)
    (st : SplitState)
    (hscan : parseSeparator argv = some (SeparatorScan.done separator argc argv1))
    (hparse : env.gpt_params_parse (argv1.take argc) = some params)
    (hload : env.modelLoads = true)
    (hsplit : splitPrompts separator.toList params.prompt fuel = some st)
    (hprompts : st.prompts ≠ [])
    (hlo : -(2 ^ 31 : Int) ≤ params.n_predict) (hhi : params.n_predict < (2 ^ 31 : Int))
    (hcap : params.n_predict > env.n_ctx) :
    ∃ trace, main env argv fuel = some (MainResult.returned 1 trace) ∧
      decodeCalls trace = 0 := by
  obtain ⟨p, ps, hp⟩ : ∃ p ps, st.prompts = p :: ps := by
    cases h : st.prompts with
    | nil => exact absurd h hprompts
    | cons p ps => exact ⟨p, ps, rfl⟩
  refine ⟨[Event.backendInit, Event.loadModel] ++ [Event.newContext, Event.tokenize], ?_, ?_⟩
  · simp only [main, hscan, hparse, hsplit, hload, if_true, hp,
      runSessions_capacity _ _ _ _ _ _ _ _ _ _ hlo hhi hcap]
  · decide

/-- Witness for C5 (amended): the text "A|B" split on "|", `n_len = 5`,
`n_ctx = 4`. -/
theorem capacity_error_exit_witness :
    (parseSeparator ["prog", "--separator", "|"]
        = some (SeparatorScan.done "|" 1 ["prog", "--separator", "|"]) ∧
      splitPrompts "|".toList ['A', '|', 'B'] 10
        = some { prompts := [['A']], prompt := ['B'] } ∧
      (5 : Int) > (sampleEnv ['A', '|', 'B'] 5 4).n_ctx) ∧
    ∃ trace, main (sampleEnv ['A', '|', 'B'] 5 4) ["prog", "--separator", "|"] 10
        = some (MainResult.returned 1 trace) ∧
      decodeCalls trace = 0 :=
  ⟨by decide,
   capacity_error_exit (sampleEnv ['A', '|', 'B'] 5 4) ["prog", "--separator", "|"] 10
    "|" 1 ["prog", "--separator", "|"] { prompt := ['A', '|', 'B'], n_predict := 5 }
    { prompts := [['A']], prompt := ['B'] }
    (by decide) rfl rfl (by decide) (by decide) (by decide) (by decide) (by decide)⟩

/-- C6 (the code at the failing input): when exactly one argument follows the pair,
`argv[i] = argv[argc - 2]` copies the separator value over `--separator` and
`argv[i + 1] = argv[argc - 1]` copies the last argument over the value, and the new
`argc` cuts that last argument off: of "--separator", "|", "--color" the parser is
given "|" and is not given "--color". -/
theorem separator_before_last_argument :
    parseSeparator ["prog", "--separator", "|", "--color"]
      = some (SeparatorScan.done "|" 2 ["prog", "|", "--color", "--color"]) ∧
    passedArguments (SeparatorScan.done "|" 2 ["prog", "|", "--color", "--color"])
      = ["prog", "|"] := by
  decide

/-- C8 (the code at the failing input): with three prompt tokens and
`n_len = n_ctx = 2` the capacity check passes (`n_kv_req = 2`), the loop is never
entered, and the session ends with `n_cur = 3 > n_ctx` and
`prompt_token_count + n_decode = 3 > n_ctx`. -/
theorem cursor_beyond_capacity :
    n_kv_req ([10, 11, 12] : List Token).length 2 = 2 ∧
    (session 2 2 2 [10, 11, 12] (fun _ => 7) (fun _ => 0) 4).map
        (fun r => (r.ending, r.n_cur, (([10, 11, 12] : List Token).length : Int) + r.n_decode))
      = some (SessionEnd.conditionFalse, 3, 3) := by
  decide

/-- C9 (the code at the failing input): with three prompt tokens and
`n_len = n_ctx = 2` the capacity check passes and the batch is created with
capacity 2; the third prefill add is made on a batch that already holds 2 entries. -/
theorem prefill_add_on_full_batch :
    n_kv_req ([10, 11, 12] : List Token).length 2 ≤ 2 ∧
    (session 2 2 2 [10, 11, 12] (fun _ => 7) (fun _ => 0) 4).map (fun r => r.trace.take 6)
      = some [Event.newContext, Event.tokenize, Event.batchInit 2,
          Event.batchAdd 0 { token := 10, pos := 0, seq := 0, logits := false },
          Event.batchAdd 1 { token := 11, pos := 1, seq := 0, logits := false },
          Event.batchAdd 2 { token := 12, pos := 2, seq := 0, logits := false }] := by
  decide

/-- C10 (the code at the failing inputs): a session that fails the capacity check
makes `main` return 1 right after the context is created and the prompt tokenized,
with no `llama_free`; a session whose second decode call fails returns 1 after the
batch and the sampler state were created, with none of `llama_batch_free`,
`llama_sampling_free` and `llama_free`. -/
theorem early_return_skips_teardown :
    main (sampleEnv ['A', '|', 'B'] 5 4) ["prog", "--separator", "|"] 10
      = some (MainResult.returned 1
          [Event.backendInit, Event.loadModel, Event.newContext, Event.tokenize]) ∧
    session 5 8 2 [10] (fun _ => 7) (fun k => if k = 0 then 0 else 1) 10
      = some { ending := SessionEnd.decodeFailed, n_cur := 2, n_decode := 1,
               trace := [Event.newContext, Event.tokenize, Event.batchInit 8,
                 Event.batchAdd 0 { token := 10, pos := 0, seq := 0, logits := false },
                 Event.setLogits 0,
                 Event.decode [{ token := 10, pos := 0, seq := 0, logits := true }] 0,
                 Event.samplingInit, Event.sample 0 7, Event.accept 7, Event.emit 7,
                 Event.batchClear,
                 Event.batchAdd 0 { token := 7, pos := 1, seq := 0, logits := true },
                 Event.decode [{ token := 7, pos := 1, seq := 0, logits := true }] 1] } := by
  decide

/-! ## Capacity, sampling index, argument scan -/

theorem session_capacity_error (n_len n_ctx : Int) (eos : Token) (ts : List Token)
    (sampler : Nat → Token) (decodeRet : Nat → Int) (fuel : Nat)
    (h : n_ctx < n_kv_req ts.length n_len) :
    session n_len n_ctx eos ts sampler decodeRet fuel
      = some { ending := SessionEnd.capacityError, n_cur := 0, n_decode := 0,
               trace := [Event.newContext, Event.tokenize] } := by
  have h1 : n_kv_req ts.length n_len > n_ctx := h
  simp [session, h1]

theorem generationLoop_ending (n_len : Int) (eos : Token) (sampler : Nat → Token)
    (decodeRet : Nat → Int) :
    ∀ (fuel : Nat) (st : LoopState) (e : SessionEnd) (st1 : LoopState),
      generationLoop n_len eos sampler decodeRet fuel st = some (e, st1) →
      e ≠ SessionEnd.capacityError ∧ e ≠ SessionEnd.prefillFailed := by
  intro fuel
  induction fuel with
  | zero => intro st e st1 h; simp [generationLoop] at h
  | succ f ih =>
    intro st e st1 h
    simp only [generationLoop] at h
    split at h
    · split at h
      · simp only [Option.some.injEq, Prod.mk.injEq] at h
        rw [← h.1]; exact ⟨by decide, by decide⟩
      · split at h
        · simp only [Option.some.injEq, Prod.mk.injEq] at h
          rw [← h.1]; exact ⟨by decide, by decide⟩
        · exact ih _ _ _ h
    · simp only [Option.some.injEq, Prod.mk.injEq] at h
      rw [← h.1]; exact ⟨by decide, by decide⟩

/-- The trace of a session up to and including the prefill decode call. -/
theorem session_cases (n_len n_ctx : Int) (eos : Token) (ts : List Token)
    (sampler : Nat → Token) (decodeRet : Nat → Int) (fuel : Nat) (r : SessionResult)
    (h : session n_len n_ctx eos ts sampler decodeRet fuel = some r) :
    (n_ctx < n_kv_req ts.length n_len ∧
      r = { ending := SessionEnd.capacityError, n_cur := 0, n_decode := 0,
            trace := [Event.newContext, Event.tokenize] }) ∨
    (n_kv_req ts.length n_len ≤ n_ctx ∧ decodeRet 0 ≠ 0 ∧
      r = { ending := SessionEnd.prefillFailed, n_cur := 0, n_decode := 0,
            trace := [Event.newContext, Event.tokenize] ++ [Event.batchInit n_ctx] ++
              (prefillAdds 0 ts).2 ++
              [Event.setLogits (((prefillAdds 0 ts).1.length : Int) - 1),
                Event.decode (markLast (prefillAdds 0 ts).1) (decodeRet 0)] }) ∨
    (n_kv_req ts.length n_len ≤ n_ctx ∧ decodeRet 0 = 0 ∧
      ∃ e st1, generationLoop n_len eos sampler decodeRet fuel (initState n_ctx ts)
          = some (e, st1) ∧
        r = { ending := e, n_cur := st1.n_cur, n_decode := st1.n_decode,
              trace := if e = SessionEnd.decodeFailed then st1.trace
                       else st1.trace ++ teardown }) := by
  by_cases hc : n_kv_req ts.length n_len > n_ctx
  · left
    rw [session_capacity_error _ _ _ _ _ _ _ hc] at h
    exact ⟨hc, (Option.some.inj h).symm⟩
  · have hcap : n_kv_req ts.length n_len ≤ n_ctx := not_lt.mp hc
    right
    by_cases h0 : decodeRet 0 = 0
    · right
      refine ⟨hcap, h0, ?_⟩
      rcases Option.eq_none_or_eq_some
        (generationLoop n_len eos sampler decodeRet fuel (initState n_ctx ts)) with hl | ⟨p, hl⟩
      · have hl2 := hl
        unfold initState at hl2
        simp only [session, hc, if_false, h0, ne_eq, not_true_eq_false, hl2] at h
        cases h
      · obtain ⟨e, st1⟩ := p
        refine ⟨e, st1, hl, ?_⟩
        by_cases he : e = SessionEnd.decodeFailed
        · subst he
          have hl2 := hl
          unfold initState at hl2
          simp only [session, hc, if_false, h0, ne_eq, not_true_eq_false, hl2] at h
          simp [← Option.some.inj h]
        · rw [session_of_loop _ _ _ _ _ _ _ hcap h0 e st1 he hl] at h
          simp [he, ← Option.some.inj h]
    · left
      refine ⟨hcap, h0, ?_⟩
      simp only [session, hc, if_false, ne_eq, h0, not_false_eq_true, if_true] at h
      exact (Option.some.inj h).symm

/-- C13: for every `int` `n_len`, negative values included, and every prompt token
count held as a 64-bit unsigned size, larger than `n_len` included, the required
capacity `n_kv_req`, computed in unsigned arithmetic modulo 2^64 and converted to a
32-bit `int`, equals `n_len`; hence a session is rejected by the capacity check
exactly when `n_len > n_ctx`, whatever the length of its prompt. (`n_kv_req` reduces
the size modulo 2^64 itself, so the size is any natural number here.) -/
theorem capacity_is_total_length (n_len n_ctx : Int) (eos : Token)
    (tokens_list : List Token) (sampler : Nat → Token) (decodeRet : Nat → Int)
    (hlo : -(2 ^ 31 : Int) ≤ n_len) (hhi : n_len < (2 ^ 31 : Int)) :
    n_kv_req tokens_list.length n_len = n_len ∧
    (n_ctx < n_len → ∀ fuel,
      (session n_len n_ctx eos tokens_list sampler decodeRet fuel).map (fun r => r.ending)
        = some SessionEnd.capacityError) ∧
    (n_len ≤ n_ctx → ∀ fuel r,
      session n_len n_ctx eos tokens_list sampler decodeRet fuel = some r →
        r.ending ≠ SessionEnd.capacityError) := by
  have hk := n_kv_req_eq tokens_list.length n_len hlo hhi
  refine ⟨hk, ?_, ?_⟩
  · intro h fuel
    rw [session_capacity_error _ _ _ _ _ _ _ (by rw [hk]; exact h)]
    rfl
  · intro h fuel r hr
    rcases session_cases _ _ _ _ _ _ _ _ hr with ⟨hc, -⟩ | ⟨-, -, rfl⟩ | ⟨-, -, e, st1, hl, rfl⟩
    · rw [hk] at hc; omega
    · intro hcontra; cases hcontra
    · exact (generationLoop_ending _ _ _ _ _ _ _ _ hl).1

/-- Witness for C13: `n_len = -1` (the default of `n_predict`), three prompt tokens,
`n_ctx = 8`. -/
theorem capacity_is_total_length_witness :
    (-(2 ^ 31 : Int) ≤ -1 ∧ (-1 : Int) < (2 ^ 31 : Int)) ∧
    n_kv_req ([10, 11, 12] : List Token).length (-1) = -1 ∧
    ((8 : Int) < -1 → ∀ fuel,
      (session (-1) 8 2 [10, 11, 12] (fun _ => 7) (fun _ => 0) fuel).map (fun r => r.ending)
        = some SessionEnd.capacityError) ∧
    ((-1 : Int) ≤ 8 → ∀ fuel r,
      session (-1) 8 2 [10, 11, 12] (fun _ => 7) (fun _ => 0) fuel = some r →
        r.ending ≠ SessionEnd.capacityError) :=
  ⟨by decide,
   capacity_is_total_length (-1) 8 2 [10, 11, 12] (fun _ => 7) (fun _ => 0)
    (by decide) (by decide)⟩

/-- C16 (the code at the failing input): with an empty token list the capacity check
passes, no prefill add is made, line 111 writes `batch.logits[-1]`, the empty batch
is submitted to `llama_decode`, and the first sampling call is given the index -1,
which is no index of that batch. -/
theorem sample_index_without_tokens :
    (session 4 8 2 [] (fun _ => 7) (fun _ => 0) 10).map (fun r => r.trace.take 7)
      = some [Event.newContext, Event.tokenize, Event.batchInit 8, Event.setLogits (-1),
          Event.decode [] 0, Event.samplingInit, Event.sample (-1) 7] := by
  decide

/-- C19 (the code at the failing input): with `--separator` as the last argument,
`i + 1` is `argc` and the statement `separator = argv[i + 1]` reads `argv[argc]`,
the null pointer that ends the argument vector, as the separator value. -/
theorem separator_last_argument :
    parseSeparator ["prog", "-m", "model", "--separator"]
      = some SeparatorScan.nullString := by
  decide

/-! ## The splitting loop: the text put back together -/

theorem isPrefixOf_split (sep : List Char) :
    ∀ s : List Char, sep.isPrefixOf s = true → s = sep ++ s.drop sep.length := by
  induction sep with
  | nil => intro s _; rfl
  | cons a as ih =>
    intro s h
    cases s with
    | nil => simp [List.isPrefixOf] at h
    | cons b bs =>
      simp only [List.isPrefixOf, Bool.and_eq_true, beq_iff_eq] at h
      obtain ⟨hab, hrest⟩ := h
      subst hab
      simp only [List.length_cons, List.drop_succ_cons, List.cons_append]
      exact congrArg _ (ih bs hrest)

theorem isPrefixOf_append_self (sep b : List Char) : sep.isPrefixOf (sep ++ b) = true := by
  induction sep with
  | nil => simp [List.isPrefixOf]
  | cons a as ih => simp [List.isPrefixOf, ih]

theorem find_some_split (sep : List Char) :
    ∀ (s : List Char) (pos : Nat), find sep s = some pos →
      s = s.take pos ++ sep ++ s.drop (pos + sep.length) := by
  intro s
  induction s with
  | nil =>
    intro pos h
    unfold find at h
    split at h
    · rename_i hp
      have := isPrefixOf_split sep [] hp
      simp only [List.drop_nil, List.append_nil] at this
      simp [← this]
    · cases h
  | cons c t ih =>
    intro pos h
    unfold find at h
    split at h
    · rename_i hp
      have hpos : pos = 0 := by cases h; rfl
      subst hpos
      simpa using isPrefixOf_split sep (c :: t) hp
    · cases hf : find sep t with
      | none => rw [hf] at h; cases h
      | some p =>
        rw [hf] at h
        have hpos : pos = p + 1 := by cases h; rfl
        subst hpos
        have := ih p hf
        have e : p + 1 + sep.length = (p + sep.length) + 1 := by omega
        rw [e, List.take_succ_cons, List.drop_succ_cons, List.cons_append, List.cons_append,
          ← this]

theorem find_none_absent (sep : List Char) :
    ∀ (s : List Char), find sep s = none → ∀ a b : List Char, s ≠ a ++ sep ++ b := by
  intro s
  induction s with
  | nil =>
    intro h a b hab
    unfold find at h
    split at h
    · cases h
    · rename_i hp
      have h1 : a ++ sep ++ b = [] := hab.symm
      simp only [List.append_eq_nil] at h1
      rw [h1.1.2] at hp
      exact hp rfl
  | cons c t ih =>
    intro h a b hab
    unfold find at h
    split at h
    · cases h
    · rename_i hp
      cases a with
      | nil =>
        rw [hab] at hp
        simp only [List.nil_append] at hp
        exact hp (isPrefixOf_append_self sep b)
      | cons a0 as =>
        have hf : find sep t = none := by
          cases hf : find sep t with
          | none => rfl
          | some p => rw [hf] at h; cases h
        simp only [List.cons_append, List.cons.injEq] at hab
        exact ih hf as b hab.2

theorem rejoin_append (sep : List Char) (a b : List (List Char)) (r : List Char) :
    rejoin sep (a ++ b) r = rejoin sep a (rejoin sep b r) := by
  induction a with
  | nil => rfl
  | cons p ps ih => simp [rejoin, ih]

theorem rejoin_length (sep : List Char) (ps : List (List Char)) (r : List Char) :
    ps.length * sep.length + r.length ≤ (rejoin sep ps r).length := by
  induction ps with
  | nil => simp [rejoin]
  | cons p ps ih =>
    simp only [rejoin, List.length_append, List.length_cons]
    have : (ps.length + 1) * sep.length = ps.length * sep.length + sep.length := by ring
    omega

/-- The splitting loop from any state: it is left within `n + 1` evaluations of its
condition when `n` bounds the length of the text; the prompts it adds and the
remainder it leaves put the text back together, and the remainder does not contain
the delimiter. -/
theorem splitLoop_rejoin {sep : List Char} (h : sep ≠ []) :
    ∀ (n : Nat) (st : SplitState), st.prompt.length ≤ n →
      ∃ added rest, (∀ fuel, n < fuel →
          splitLoop sep fuel st = some { prompts := st.prompts ++ added, prompt := rest }) ∧
        rejoin sep added rest = st.prompt ∧ ∀ a b : List Char, rest ≠ a ++ sep ++ b := by
  have hm : 0 < sep.length := List.length_pos.mpr h
  intro n
  induction n with
  | zero =>
    intro st hlen
    have hnil : st.prompt = [] := List.length_eq_zero.mp (Nat.le_zero.mp hlen)
    have hfind : find sep st.prompt = none := by rw [hnil]; exact find_nil h
    refine ⟨[], st.prompt, ?_, rfl, find_none_absent sep _ hfind⟩
    intro fuel hf
    obtain ⟨f, rfl⟩ : ∃ f, fuel = f + 1 := ⟨fuel - 1, by omega⟩
    simp [splitLoop, splitStep, hfind]
  | succ n ih =>
    intro st hlen
    cases hfind : find sep st.prompt with
    | none =>
      refine ⟨[], st.prompt, ?_, rfl, find_none_absent sep _ hfind⟩
      intro fuel hf
      obtain ⟨f, rfl⟩ : ∃ f, fuel = f + 1 := ⟨fuel - 1, by omega⟩
      simp [splitLoop, splitStep, hfind]
    | some pos =>
      have hsplit := find_some_split sep st.prompt pos hfind
      have hl : st.prompt.length
          = (st.prompt.take pos).length + sep.length
            + (st.prompt.drop (pos + sep.length)).length := by
        conv => lhs; rw [hsplit]
        simp only [List.length_append]
      obtain ⟨added, rest, hrun, hjoin, habs⟩ :=
        ih { prompts := st.prompts ++ [substr0 st.prompt pos],
             prompt := erase0 st.prompt (pos + sep.length) }
          (by simp only [erase0]; omega)
      refine ⟨substr0 st.prompt pos :: added, rest, ?_, ?_, habs⟩
      · intro fuel hf
        obtain ⟨f, rfl⟩ : ∃ f, fuel = f + 1 := ⟨fuel - 1, by omega⟩
        simp only [splitLoop, splitStep, hfind]
        rw [hrun f (by omega)]
        simp
      · simp only [rejoin, hjoin, substr0, erase0]
        exact hsplit.symm

/-- C17: for every text and every non-empty delimiter the splitting loop finishes
(any fuel above the length of the text is enough), and the produced prompts, each
followed by the delimiter, and then the remainder left in `params.prompt`, put
together give back the text exactly; the remainder does not contain the delimiter. -/
theorem split_rejoins_to_text (sep text : List Char) (h : sep ≠ []) :
    ∃ st, (∀ fuel, text.length < fuel → splitPrompts sep text fuel = some st) ∧
      rejoin sep st.prompts st.prompt = text ∧
      ∀ a b : List Char, st.prompt ≠ a ++ sep ++ b := by
  obtain ⟨added, rest, hrun, hjoin, habs⟩ :=
    splitLoop_rejoin h text.length { prompts := [], prompt := text } (le_refl _)
  refine ⟨{ prompts := added, prompt := rest }, ?_, hjoin, habs⟩
  intro fuel hf
  simpa [splitPrompts] using hrun fuel hf

/-- Witness for C17 at the delimiter "ab" and the text "xabyabz". -/
theorem split_rejoins_to_text_witness :
    (['a', 'b'] : List Char) ≠ [] ∧
    ∃ st, (∀ fuel, ['x', 'a', 'b', 'y', 'a', 'b', 'z'].length < fuel →
        splitPrompts ['a', 'b'] ['x', 'a', 'b', 'y', 'a', 'b', 'z'] fuel = some st) ∧
      rejoin ['a', 'b'] st.prompts st.prompt = ['x', 'a', 'b', 'y', 'a', 'b', 'z'] ∧
      ∀ a b : List Char, st.prompt ≠ a ++ ['a', 'b'] ++ b :=
  ⟨by decide, split_rejoins_to_text ['a', 'b'] ['x', 'a', 'b', 'y', 'a', 'b', 'z'] (by decide)⟩

/-- C18: for every text and every non-empty delimiter the splitting loop terminates
(any fuel above the length of the text is enough): the delimiter has at least one
character, each iteration removes at least as many characters from the remaining
text as the delimiter has, and so the number of prompts produced is at most
`floor(|T| / |D|)`. -/
theorem split_prompts_bounded (sep text : List Char) (h : sep ≠ []) :
    1 ≤ sep.length ∧
    (∀ st st1 : SplitState, splitStep sep st = some st1 →
      st1.prompt.length + sep.length ≤ st.prompt.length) ∧
    ∃ st, (∀ fuel, text.length < fuel → splitPrompts sep text fuel = some st) ∧
      st.prompts.length ≤ text.length / sep.length := by
  have hm : 0 < sep.length := List.length_pos.mpr h
  refine ⟨hm, ?_, ?_⟩
  · intro st st1 hstep
    unfold splitStep at hstep
    cases hfind : find sep st.prompt with
    | none => rw [hfind] at hstep; cases hstep
    | some pos =>
      rw [hfind] at hstep
      have hsplit := find_some_split sep st.prompt pos hfind
      have hl : st.prompt.length
          = (st.prompt.take pos).length + sep.length
            + (st.prompt.drop (pos + sep.length)).length := by
        conv => lhs; rw [hsplit]
        simp only [List.length_append]
      have e : st1.prompt = st.prompt.drop (pos + sep.length) := by
        cases hstep; rfl
      rw [e]; omega
  · obtain ⟨added, rest, hrun, hjoin, -⟩ :=
      splitLoop_rejoin h text.length { prompts := [], prompt := text } (le_refl _)
    refine ⟨{ prompts := added, prompt := rest }, ?_, ?_⟩
    · intro fuel hf
      simpa [splitPrompts] using hrun fuel hf
    · have hlen := rejoin_length sep added rest
      rw [hjoin] at hlen
      simp only at hlen ⊢
      exact (Nat.le_div_iff_mul_le hm).mpr (by omega)

/-- Witness for C18 at the delimiter "ab" and the text "xabyabz". -/
theorem split_prompts_bounded_witness :
    (['a', 'b'] : List Char) ≠ [] ∧
    1 ≤ ['a', 'b'].length ∧
    (∀ st st1 : SplitState, splitStep ['a', 'b'] st = some st1 →
      st1.prompt.length + ['a', 'b'].length ≤ st.prompt.length) ∧
    ∃ st, (∀ fuel, ['x', 'a', 'b', 'y', 'a', 'b', 'z'].length < fuel →
        splitPrompts ['a', 'b'] ['x', 'a', 'b', 'y', 'a', 'b', 'z'] fuel = some st) ∧
      st.prompts.length ≤ ['x', 'a', 'b', 'y', 'a', 'b', 'z'].length / ['a', 'b'].length :=
  ⟨by decide, split_prompts_bounded ['a', 'b'] ['x', 'a', 'b', 'y', 'a', 'b', 'z'] (by decide)⟩

/-! ## The sample-decode loop: where it ends -/

theorem nextState_eq_stepState (sampler : Nat → Token) (st : LoopState) :
    nextState sampler st = stepState sampler 0 st := rfl

theorem generationLoop_failed (n_len : Int) (eos : Token) (sampler : Nat → Token)
    (decodeRet : Nat → Int) (st : LoopState) (f : Nat) (hc : st.n_cur < n_len)
    (hs : sampler st.samples ≠ eos) (hd : decodeRet st.decodes ≠ 0) :
    generationLoop n_len eos sampler decodeRet (f + 1) st
      = some (SessionEnd.decodeFailed, stepState sampler (decodeRet st.decodes) st) := by
  have h1 : st.n_cur ≤ n_len := le_of_lt hc
  have h2 : ¬ (sampler st.samples = eos ∨ st.n_cur = n_len) := by
    intro h
    cases h with
    | inl h => exact hs h
    | inr h => omega
  simp [generationLoop, h1, h2, hd, stepState]

/-- Where the loop ends, from a state satisfying an invariant kept by the iterations
that reach `llama_decode`. -/
theorem generationLoop_end (n_len : Int) (eos : Token) (sampler : Nat → Token)
    (decodeRet : Nat → Int) (Inv : LoopState → Prop)
    (hstep : ∀ st, Inv st → st.n_cur < n_len → sampler st.samples ≠ eos →
      Inv (stepState sampler (decodeRet st.decodes) st)) :
    ∀ (fuel : Nat) (st : LoopState) (e : SessionEnd) (st1 : LoopState),
      generationLoop n_len eos sampler decodeRet fuel st = some (e, st1) → Inv st →
      (e = SessionEnd.conditionFalse ∧ Inv st1 ∧ n_len < st1.n_cur) ∨
      (e = SessionEnd.stopped ∧ ∃ h, Inv h ∧ st1 = stopState sampler h ∧ h.n_cur ≤ n_len) ∨
      (e = SessionEnd.decodeFailed ∧ Inv st1 ∧
        ∃ h, Inv h ∧ decodeRet h.decodes ≠ 0 ∧
          st1 = stepState sampler (decodeRet h.decodes) h) := by
  intro fuel
  induction fuel with
  | zero => intro st e st1 h; simp [generationLoop] at h
  | succ f ih =>
    intro st e st1 h hinv
    by_cases hc : st.n_cur ≤ n_len
    · by_cases hs : sampler st.samples = eos ∨ st.n_cur = n_len
      · rw [generationLoop_break _ _ _ _ _ _ hc hs] at h
        simp only [Option.some.injEq, Prod.mk.injEq] at h
        right; left
        exact ⟨h.1.symm, st, hinv, h.2.symm, hc⟩
      · have hlt : st.n_cur < n_len := by
          rcases lt_or_eq_of_le hc with h1 | h1
          · exact h1
          · exact absurd (Or.inr h1) hs
        have hne : sampler st.samples ≠ eos := fun h1 => hs (Or.inl h1)
        by_cases hd : decodeRet st.decodes = 0
        · rw [generationLoop_continue _ _ _ _ _ _ hlt hne hd, nextState_eq_stepState] at h
          have hi := hstep st hinv hlt hne
          rw [hd] at hi
          exact ih _ _ _ h hi
        · rw [generationLoop_failed _ _ _ _ _ _ hlt hne hd] at h
          simp only [Option.some.injEq, Prod.mk.injEq] at h
          right; right
          refine ⟨h.1.symm, ?_, st, hinv, hd, h.2.symm⟩
          rw [← h.2]
          exact hstep st hinv hlt hne
    · rw [generationLoop_false _ _ _ _ _ _ (not_le.mp hc)] at h
      simp only [Option.some.injEq, Prod.mk.injEq] at h
      left
      refine ⟨h.1.symm, ?_, ?_⟩
      · rw [← h.2]; exact hinv
      · rw [← h.2]; exact not_le.mp hc

/-- The loop is left within `n_len + 1 - n_cur` evaluations of its condition, plus
one. -/
theorem generationLoop_total (n_len : Int) (eos : Token) (sampler : Nat → Token)
    (decodeRet : Nat → Int) :
    ∀ (fuel : Nat) (st : LoopState), (n_len + 1 - st.n_cur).toNat < fuel →
      ∃ e st1, generationLoop n_len eos sampler decodeRet fuel st = some (e, st1) := by
  intro fuel
  induction fuel with
  | zero => intro st h; omega
  | succ f ih =>
    intro st hf
    by_cases hc : st.n_cur ≤ n_len
    · by_cases hs : sampler st.samples = eos ∨ st.n_cur = n_len
      · exact ⟨_, _, generationLoop_break _ _ _ _ _ _ hc hs⟩
      · have hlt : st.n_cur < n_len := by
          rcases lt_or_eq_of_le hc with h1 | h1
          · exact h1
          · exact absurd (Or.inr h1) hs
        have hne : sampler st.samples ≠ eos := fun h1 => hs (Or.inl h1)
        by_cases hd : decodeRet st.decodes = 0
        · rw [generationLoop_continue _ _ _ _ _ _ hlt hne hd]
          apply ih
          simp only [nextState]
          omega
        · exact ⟨_, _, generationLoop_failed _ _ _ _ _ _ hlt hne hd⟩
    · exact ⟨_, _, generationLoop_false _ _ _ _ _ _ (not_le.mp hc)⟩

/-- Every session ends: any fuel above `n_len + 1 - prompt_token_count` is enough. -/
theorem session_total (n_len n_ctx : Int) (eos : Token) (ts : List Token)
    (sampler : Nat → Token) (decodeRet : Nat → Int) (fuel : Nat)
    (hf : (n_len + 1 - ts.length).toNat < fuel) :
    ∃ r, session n_len n_ctx eos ts sampler decodeRet fuel = some r := by
  by_cases hc : n_kv_req ts.length n_len > n_ctx
  · exact ⟨_, session_capacity_error _ _ _ _ _ _ _ hc⟩
  · have hcap : n_kv_req ts.length n_len ≤ n_ctx := not_lt.mp hc
    by_cases h0 : decodeRet 0 = 0
    · obtain ⟨e, st1, hl⟩ := generationLoop_total n_len eos sampler decodeRet fuel
        (initState n_ctx ts) (by rw [initState_n_cur]; exact hf)
      by_cases he : e = SessionEnd.decodeFailed
      · subst he
        have hl2 := hl
        unfold initState at hl2
        refine ⟨{ ending := SessionEnd.decodeFailed, n_cur := st1.n_cur,
                  n_decode := st1.n_decode, trace := st1.trace }, ?_⟩
        simp only [session, hc, if_false, h0, ne_eq, not_true_eq_false, hl2]
      · exact ⟨_, session_of_loop _ _ _ _ _ _ _ hcap h0 e st1 he hl⟩
    · obtain ⟨r, hr, -⟩ := session_prefill_failed n_len n_ctx eos ts sampler decodeRet hcap h0
      exact ⟨r, hr fuel⟩

/-! ## Sampling, acceptance, output -/

theorem acceptedBeforeEmit_nil : acceptedBeforeEmit [] := by
  intro i id h
  simp at h

theorem acceptedBeforeEmit_append_quiet (a b : List Event) (ha : acceptedBeforeEmit a)
    (hb : ∀ id, Event.emit id ∉ b) : acceptedBeforeEmit (a ++ b) := by
  intro i id h
  by_cases hi : i < a.length
  · rw [List.getElem?_append_left hi] at h
    obtain ⟨h2, h1, idx, h0⟩ := ha i id h
    refine ⟨h2, ?_, idx, ?_⟩
    · rw [List.getElem?_append_left (by omega)]; exact h1
    · rw [List.getElem?_append_left (by omega)]; exact h0
  · rw [List.getElem?_append_right (by omega)] at h
    exact absurd (List.getElem?_mem h) (hb id)

theorem acceptedBeforeEmit_append_emit (a : List Event) (ha : acceptedBeforeEmit a)
    (index : Int) (tok : Token) :
    acceptedBeforeEmit (a ++ [Event.sample index tok, Event.accept tok, Event.emit tok]) := by
  intro i id h
  by_cases hi : i < a.length
  · rw [List.getElem?_append_left hi] at h
    obtain ⟨h2, h1, idx, h0⟩ := ha i id h
    refine ⟨h2, ?_, idx, ?_⟩
    · rw [List.getElem?_append_left (by omega)]; exact h1
    · rw [List.getElem?_append_left (by omega)]; exact h0
  · rw [List.getElem?_append_right (by omega)] at h
    obtain ⟨k, hk⟩ : ∃ k, i = a.length + k := ⟨i - a.length, by omega⟩
    subst hk
    simp only [Nat.add_sub_cancel_left] at h
    match k, h with
    | 0, h => simp at h
    | 1, h => simp at h
    | 2, h =>
      simp only [List.getElem?_cons_succ, List.getElem?_cons_zero, Option.some.injEq,
        Event.emit.injEq] at h
      subst h
      refine ⟨by omega, ?_, index, ?_⟩
      · rw [List.getElem?_append_right (by omega)]
        have : a.length + 2 - 1 - a.length = 1 := by omega
        rw [this]; rfl
      · rw [List.getElem?_append_right (by omega)]
        have : a.length + 2 - 2 - a.length = 0 := by omega
        rw [this]; rfl
    | k + 3, h => simp at h

theorem prefillAdds_quiet (held : Nat) (ts : List Token) :
    ∀ id, Event.emit id ∉ (prefillAdds held ts).2 := by
  induction ts generalizing held with
  | nil => intro id h; simp [prefillAdds] at h
  | cons t ts ih =>
    intro id h
    simp only [prefillAdds, List.mem_cons] at h
    rcases h with h | h
    · cases h
    · exact ih (held + 1) id h

theorem initState_accepted (n_ctx : Int) (ts : List Token) :
    acceptedBeforeEmit (initState n_ctx ts).trace := by
  have := acceptedBeforeEmit_append_quiet [] (initState n_ctx ts).trace
    acceptedBeforeEmit_nil (by
      intro id h
      simp only [initState, List.mem_append, List.mem_cons, List.mem_singleton,
        List.not_mem_nil, or_false] at h
      rcases h with (((h | h) | h) | h) | h
      · rcases h with h | h <;> cases h
      · cases h
      · exact prefillAdds_quiet 0 ts id h
      · rcases h with h | h <;> cases h
      · cases h)
  simpa using this

theorem stepState_accepted (sampler : Nat → Token) (ret : Int) (st : LoopState)
    (h : acceptedBeforeEmit st.trace) : acceptedBeforeEmit (stepState sampler ret st).trace := by
  have h1 := acceptedBeforeEmit_append_emit st.trace h ((st.batch.length : Int) - 1)
    (sampler st.samples)
  have h2 := acceptedBeforeEmit_append_quiet _
    [Event.batchClear,
      Event.batchAdd 0 { token := sampler st.samples, pos := st.n_cur, seq := 0, logits := true },
      Event.decode
        [{ token := sampler st.samples, pos := st.n_cur, seq := 0, logits := true }] ret] h1
    (by
      intro id hm
      simp only [List.mem_cons, List.mem_singleton, List.not_mem_nil, or_false] at hm
      rcases hm with hm | hm | hm <;> cases hm)
  simpa [stepState] using h2

theorem stopState_accepted (sampler : Nat → Token) (st : LoopState)
    (h : acceptedBeforeEmit st.trace) : acceptedBeforeEmit (stopState sampler st).trace := by
  have h2 := acceptedBeforeEmit_append_quiet st.trace
    [Event.sample ((st.batch.length : Int) - 1) (sampler st.samples),
      Event.accept (sampler st.samples), Event.endl] h
    (by
      intro id hm
      simp only [List.mem_cons, List.mem_singleton, List.not_mem_nil, or_false] at hm
      rcases hm with hm | hm | hm <;> cases hm)
  simpa [stopState] using h2

theorem teardown_accepted (tr : List Event) (h : acceptedBeforeEmit tr) :
    acceptedBeforeEmit (tr ++ teardown) := by
  apply acceptedBeforeEmit_append_quiet _ _ h
  intro id hm
  simp only [teardown, List.mem_cons, List.mem_singleton, List.not_mem_nil, or_false] at hm
  rcases hm with hm | hm | hm | hm <;> cases hm

/-- C11: every session ends (any fuel above `n_len + 1 - prompt_token_count` is
enough), and in its event trace each token written to the output comes right after
the sampler's acceptance of that same token, which comes right after its sampling:
no batch mutation and no decode call lies between the sampling and the acceptance,
and no token is written before it has been accepted. -/
theorem emitted_tokens_were_accepted (n_len n_ctx : Int) (eos : Token)
    (tokens_list : List Token) (sampler : Nat → Token) (decodeRet : Nat → Int) :
    (∀ fuel, (n_len + 1 - tokens_list.length).toNat < fuel →
      ∃ r, session n_len n_ctx eos tokens_list sampler decodeRet fuel = some r) ∧
    ∀ fuel r, session n_len n_ctx eos tokens_list sampler decodeRet fuel = some r →
      acceptedBeforeEmit r.trace := by
  refine ⟨fun fuel hf => session_total _ _ _ _ _ _ fuel hf, ?_⟩
  intro fuel r hr
  rcases session_cases _ _ _ _ _ _ _ _ hr with
    ⟨-, rfl⟩ | ⟨-, -, rfl⟩ | ⟨-, -, e, st1, hl, rfl⟩
  · have := acceptedBeforeEmit_append_quiet [] [Event.newContext, Event.tokenize]
      acceptedBeforeEmit_nil (by
        intro id h
        simp only [List.mem_cons, List.mem_singleton, List.not_mem_nil, or_false] at h
        rcases h with h | h <;> cases h)
    simpa using this
  · have := acceptedBeforeEmit_append_quiet []
      ([Event.newContext, Event.tokenize] ++ [Event.batchInit n_ctx] ++
        (prefillAdds 0 tokens_list).2 ++
        [Event.setLogits (((prefillAdds 0 tokens_list).1.length : Int) - 1),
          Event.decode (markLast (prefillAdds 0 tokens_list).1) (decodeRet 0)])
      acceptedBeforeEmit_nil (by
        intro id h
        simp only [List.mem_append, List.mem_cons, List.mem_singleton,
          List.not_mem_nil, or_false] at h
        rcases h with ((h | h) | h) | h
        · rcases h with h | h <;> cases h
        · cases h
        · exact prefillAdds_quiet 0 tokens_list id h
        · rcases h with h | h <;> cases h)
    simpa using this
  · rcases generationLoop_end n_len eos sampler decodeRet
        (fun st => acceptedBeforeEmit st.trace)
        (fun st hst _ _ => stepState_accepted sampler _ st hst)
        fuel _ e st1 hl (initState_accepted n_ctx tokens_list) with
      ⟨rfl, hinv, -⟩ | ⟨rfl, h, hinv, rfl, -⟩ | ⟨rfl, hinv, -⟩
    · simpa using teardown_accepted _ hinv
    · simpa using teardown_accepted _ (stopState_accepted sampler h hinv)
    · simpa using hinv

/-- Witness for C11: three prompt tokens, `n_len = 5`, `n_ctx = 8`. -/
theorem emitted_tokens_were_accepted_witness :
    ∃ r, session 5 8 2 [10, 11, 12] (fun _ => 7) (fun _ => 0) 10 = some r ∧
      acceptedBeforeEmit r.trace := by
  obtain ⟨r, hr⟩ :=
    (emitted_tokens_were_accepted 5 8 2 [10, 11, 12] (fun _ => 7) (fun _ => 0)).1 10
      (by decide)
  exact ⟨r, hr,
    (emitted_tokens_were_accepted 5 8 2 [10, 11, 12] (fun _ => 7) (fun _ => 0)).2 10 r hr⟩

/-! ## The batches submitted to `llama_decode` -/

theorem decodedBatches_append (a b : List Event) :
    decodedBatches (a ++ b) = decodedBatches a ++ decodedBatches b := by
  induction a with
  | nil => rfl
  | cons e es ih => cases e <;> simp [decodedBatches, ih]

theorem prefillAdds_decodedBatches (held : Nat) (ts : List Token) :
    decodedBatches (prefillAdds held ts).2 = [] := by
  induction ts generalizing held with
  | nil => rfl
  | cons t ts ih => simp [prefillAdds, decodedBatches, ih]

theorem prefillAdds_getElem? (ts : List Token) :
    ∀ (held i : Nat), (prefillAdds held ts).1[i]?
      = (ts[i]?).map (fun t => { token := t, pos := ((held + i : Nat) : Int), seq := 0,
                                 logits := false }) := by
  induction ts with
  | nil => intro held i; simp [prefillAdds]
  | cons t ts ih =>
    intro held i
    cases i with
    | zero => simp [prefillAdds]
    | succ i =>
      simp only [prefillAdds, List.getElem?_cons_succ]
      rw [ih (held + 1) i]
      have : held + 1 + i = held + (i + 1) := by omega
      rw [this]

theorem markLast_getElem? (es : List BatchEntry) :
    ∀ i : Nat, (markLast es)[i]?
      = (es[i]?).map (fun e => if i + 1 = es.length then { e with logits := true } else e) := by
  induction es with
  | nil => intro i; simp [markLast]
  | cons e es ih =>
    intro i
    cases es with
    | nil =>
      cases i with
      | zero => simp [markLast]
      | succ i => simp [markLast]
    | cons e2 es =>
      cases i with
      | zero => simp [markLast]
      | succ i =>
        simp only [markLast, List.getElem?_cons_succ, List.length_cons] at ih ⊢
        rw [ih i]
        congr 1
        funext x
        have : (i + 1 = es.length + 1) = (i + 1 + 1 = es.length + 1 + 1) := by
          apply propext; constructor <;> intro h <;> omega
        simp only [this]

/-- The prefill batch of a session: token `i` at position `i`, sequence 0, logits on
the last entry only. -/
theorem prefill_batch_getElem? (ts : List Token) (i : Nat) :
    (markLast (prefillAdds 0 ts).1)[i]?
      = (ts[i]?).map (fun t => { token := t, pos := (i : Int), seq := 0,
                                 logits := decide (i + 1 = ts.length) }) := by
  rw [markLast_getElem?, prefillAdds_getElem?, prefillAdds_length]
  cases ts[i]? with
  | none => rfl
  | some t =>
    simp only [Option.map_some', Nat.zero_add]
    by_cases h : i + 1 = ts.length <;> simp [h]

theorem initState_decodedBatches (n_ctx : Int) (ts : List Token) :
    decodedBatches (initState n_ctx ts).trace = [markLast (prefillAdds 0 ts).1] := by
  simp [initState, decodedBatches_append, decodedBatches, prefillAdds_decodedBatches]

theorem stepState_decodedBatches (sampler : Nat → Token) (ret : Int) (st : LoopState) :
    decodedBatches (stepState sampler ret st).trace
      = decodedBatches st.trace
        ++ [[{ token := sampler st.samples, pos := st.n_cur, seq := 0, logits := true }]] := by
  simp [stepState, decodedBatches_append, decodedBatches]

theorem stopState_decodedBatches (sampler : Nat → Token) (st : LoopState) :
    decodedBatches (stopState sampler st).trace = decodedBatches st.trace := by
  simp [stopState, decodedBatches_append, decodedBatches]

theorem teardown_decodedBatches (tr : List Event) :
    decodedBatches (tr ++ teardown) = decodedBatches tr := by
  simp [teardown, decodedBatches_append, decodedBatches]

theorem head?_append_of_head? {α : Type} (a b : List α) (x : α) (h : a.head? = some x) :
    (a ++ b).head? = some x := by
  cases a with
  | nil => cases h
  | cons y ys => simpa using h

/-- The first batch a session submits to `llama_decode` is its prefill batch; a
session that fails the capacity check submits none. -/
theorem session_first_batch (n_len n_ctx : Int) (eos : Token) (ts : List Token)
    (sampler : Nat → Token) (decodeRet : Nat → Int) (fuel : Nat) (r : SessionResult)
    (hr : session n_len n_ctx eos ts sampler decodeRet fuel = some r) :
    (r.ending = SessionEnd.capacityError → decodedBatches r.trace = []) ∧
    (r.ending ≠ SessionEnd.capacityError →
      (decodedBatches r.trace).head? = some (markLast (prefillAdds 0 ts).1)) := by
  rcases session_cases _ _ _ _ _ _ _ _ hr with
    ⟨-, rfl⟩ | ⟨-, -, rfl⟩ | ⟨-, -, e, st1, hl, rfl⟩
  · constructor
    · intro _; rfl
    · intro h; exact absurd rfl h
  · constructor
    · intro h; cases h
    · intro _
      simp [decodedBatches_append, decodedBatches, prefillAdds_decodedBatches]
  · have hne := (generationLoop_ending _ _ _ _ _ _ _ _ hl).1
    refine ⟨fun h => absurd h hne, fun _ => ?_⟩
    have h0 : (decodedBatches (initState n_ctx ts).trace).head?
        = some (markLast (prefillAdds 0 ts).1) := by
      rw [initState_decodedBatches]; rfl
    rcases generationLoop_end n_len eos sampler decodeRet
        (fun st => (decodedBatches st.trace).head? = some (markLast (prefillAdds 0 ts).1))
        (fun st hst _ _ => by
          beta_reduce at hst ⊢
          rw [stepState_decodedBatches]
          exact head?_append_of_head? _ _ _ hst)
        fuel _ e st1 hl h0 with
      ⟨rfl, hinv, -⟩ | ⟨rfl, h, hinv, rfl, -⟩ | ⟨rfl, hinv, -⟩
    · simpa [teardown_decodedBatches] using hinv
    · simpa [teardown_decodedBatches, stopState_decodedBatches] using hinv
    · simpa using hinv

/-- C14: for every non-empty prompt token list `t_0 .. t_(P-1)` with `P <= n_ctx`,
the session ends (any fuel above `n_len + 1 - P` is enough); when it fails the
capacity check it makes no decode call, and otherwise the batch submitted to its
first decode call has exactly `P` entries, the `i`-th being token `t_i` at position
`i` in sequence 0, with `emit_logits` true on the last entry and false on every
other entry. -/
theorem prefill_batch_entries (n_len n_ctx : Int) (eos : Token) (tokens_list : List Token)
    (sampler : Nat → Token) (decodeRet : Nat → Int)
    (_hne : tokens_list ≠ []) (_hP : (tokens_list.length : Int) ≤ n_ctx) :
    (∀ fuel, (n_len + 1 - tokens_list.length).toNat < fuel →
      ∃ r, session n_len n_ctx eos tokens_list sampler decodeRet fuel = some r) ∧
    ∀ fuel r, session n_len n_ctx eos tokens_list sampler decodeRet fuel = some r →
      (r.ending = SessionEnd.capacityError → decodedBatches r.trace = []) ∧
      (r.ending ≠ SessionEnd.capacityError →
        ∃ b, (decodedBatches r.trace).head? = some b ∧ b.length = tokens_list.length ∧
          ∀ i : Nat, b[i]? = (tokens_list[i]?).map
            (fun t => { token := t, pos := (i : Int), seq := 0,
                        logits := decide (i + 1 = tokens_list.length) })) := by
  refine ⟨fun fuel hf => session_total _ _ _ _ _ _ fuel hf, ?_⟩
  intro fuel r hr
  obtain ⟨h1, h2⟩ := session_first_batch _ _ _ _ _ _ _ _ hr
  refine ⟨h1, fun hne => ⟨_, h2 hne, ?_, fun i => prefill_batch_getElem? tokens_list i⟩⟩
  rw [markLast_length, prefillAdds_length]

/-- Witness for C14: three prompt tokens, `n_len = 5`, `n_ctx = 8`. -/
theorem prefill_batch_entries_witness :
    (([10, 11, 12] : List Token) ≠ [] ∧ ((([10, 11, 12] : List Token).length : Int) ≤ 8)) ∧
    ∃ r, session 5 8 2 [10, 11, 12] (fun _ => 7) (fun _ => 0) 10 = some r ∧
      r.ending ≠ SessionEnd.capacityError ∧
      ∃ b, (decodedBatches r.trace).head? = some b ∧
        b.length = ([10, 11, 12] : List Token).length ∧
        ∀ i : Nat, b[i]? = (([10, 11, 12] : List Token)[i]?).map
          (fun t => { token := t, pos := (i : Int), seq := 0,
                      logits := decide (i + 1 = ([10, 11, 12] : List Token).length) }) := by
  refine ⟨by decide, ?_⟩
  have key := prefill_batch_entries 5 8 2 [10, 11, 12] (fun _ => 7) (fun _ => 0)
    (by decide) (by decide)
  obtain ⟨r, hr⟩ := key.1 10 (by decide)
  have hend : r.ending ≠ SessionEnd.capacityError := by
    have : session 5 8 2 [10, 11, 12] (fun _ => 7) (fun _ => 0) 10 ≠ none := by
      rw [hr]; exact Option.some_ne_none r
    intro hce
    have h2 : (session 5 8 2 [10, 11, 12] (fun _ => 7) (fun _ => 0) 10).map
        (fun r => r.ending) = some SessionEnd.stopped := by decide
    rw [hr] at h2
    simp only [Option.map_some', Option.some.injEq] at h2
    rw [hce] at h2
    cases h2
  exact ⟨r, hr, hend, (key.2 10 r hr).2 hend⟩

/-! ## Positions and the cursor -/

theorem prefill_batch_positions (ts : List Token) :
    (markLast (prefillAdds 0 ts).1).map (fun e => e.pos)
      = List.map Int.ofNat (List.range ts.length) := by
  apply List.ext_getElem?
  intro i
  rw [List.getElem?_map, prefill_batch_getElem?, List.getElem?_map]
  by_cases hi : i < ts.length
  · rw [List.getElem?_eq_getElem hi,
      List.getElem?_eq_getElem (show i < (List.range ts.length).length by simpa using hi)]
    simp
  · rw [List.getElem?_eq_none (by omega),
      List.getElem?_eq_none (show (List.range ts.length).length ≤ i by simp; omega)]
    rfl

theorem flatten_map_singleton {α β : Type} (f : α → β) (l : List α) :
    (l.map (fun a => [f a])).flatten = l.map f := by
  induction l with
  | nil => rfl
  | cons a l ih => simp [ih]

theorem loopHeads_getElem? (n_len : Int) (eos : Token) (sampler : Nat → Token)
    (decodeRet : Nat → Int) :
    ∀ (fuel : Nat) (st : LoopState) (k : Nat) (h : LoopState),
      (loopHeads n_len eos sampler decodeRet fuel st)[k]? = some h →
      h.n_cur = st.n_cur + k ∧ h.n_decode = st.n_decode + k := by
  intro fuel
  induction fuel with
  | zero => intro st k h hk; simp [loopHeads] at hk
  | succ f ih =>
    intro st k h hk
    cases k with
    | zero =>
      simp only [loopHeads, List.getElem?_cons_zero, Option.some.injEq] at hk
      subst hk; simp
    | succ k =>
      simp only [loopHeads, List.getElem?_cons_succ] at hk
      split at hk
      · split at hk
        · simp at hk
        · split at hk
          · simp at hk
          · obtain ⟨h1, h2⟩ := ih _ k h hk
            simp only [stepState] at h1 h2
            constructor
            · rw [h1]; push_cast; ring
            · rw [h2]; push_cast; ring
      · simp at hk

theorem generationLoop_last_head (n_len : Int) (eos : Token) (sampler : Nat → Token)
    (decodeRet : Nat → Int) :
    ∀ (fuel : Nat) (st : LoopState) (e : SessionEnd) (st1 : LoopState),
      generationLoop n_len eos sampler decodeRet fuel st = some (e, st1) →
      e ≠ SessionEnd.decodeFailed →
      ∃ h, h ∈ loopHeads n_len eos sampler decodeRet fuel st ∧
        st1.n_cur = h.n_cur ∧ st1.n_decode = h.n_decode := by
  intro fuel
  induction fuel with
  | zero => intro st e st1 h; simp [generationLoop] at h
  | succ f ih =>
    intro st e st1 h hne
    by_cases hc : st.n_cur ≤ n_len
    · by_cases hs : sampler st.samples = eos ∨ st.n_cur = n_len
      · rw [generationLoop_break _ _ _ _ _ _ hc hs] at h
        simp only [Option.some.injEq, Prod.mk.injEq] at h
        refine ⟨st, by simp [loopHeads], ?_, ?_⟩
        · rw [← h.2]; rfl
        · rw [← h.2]; rfl
      · have hlt : st.n_cur < n_len := by
          rcases lt_or_eq_of_le hc with h1 | h1
          · exact h1
          · exact absurd (Or.inr h1) hs
        have hse : sampler st.samples ≠ eos := fun h1 => hs (Or.inl h1)
        by_cases hd : decodeRet st.decodes = 0
        · rw [generationLoop_continue _ _ _ _ _ _ hlt hse hd, nextState_eq_stepState] at h
          obtain ⟨x, hx, h1, h2⟩ := ih _ _ _ h hne
          refine ⟨x, ?_, h1, h2⟩
          simp only [loopHeads, hc, if_true, hs, if_false, hd, ne_eq, not_true_eq_false,
            List.mem_cons]
          right; exact hx
        · rw [generationLoop_failed _ _ _ _ _ _ hlt hse hd] at h
          simp only [Option.some.injEq, Prod.mk.injEq] at h
          exact absurd h.1.symm hne
    · rw [generationLoop_false _ _ _ _ _ _ (not_le.mp hc)] at h
      simp only [Option.some.injEq, Prod.mk.injEq] at h
      refine ⟨st, by simp [loopHeads], ?_, ?_⟩
      · rw [← h.2]
      · rw [← h.2]

theorem stepState_emitted (sampler : Nat → Token) (ret : Int) (st : LoopState) :
    emitted (stepState sampler ret st).trace = emitted st.trace ++ [sampler st.samples] := by
  simp [stepState, emitted_append, emitted]

theorem stopState_emitted (sampler : Nat → Token) (st : LoopState) :
    emitted (stopState sampler st).trace = emitted st.trace := by
  simp [stopState, emitted_append, emitted]

/-- What holds at every loop head of a session whose decode calls succeed, in terms
of the number `g` of tokens generated so far. -/
theorem session_positions (n_len n_ctx : Int) (eos : Token) (ts : List Token)
    (sampler : Nat → Token) (decodeRet : Nat → Int) (hdec : ∀ k, decodeRet k = 0)
    (fuel : Nat) (r : SessionResult)
    (hr : session n_len n_ctx eos ts sampler decodeRet fuel = some r)
    (hne : r.ending ≠ SessionEnd.capacityError) :
    ∃ g : Nat, r.n_decode = g ∧ r.n_cur = (ts.length : Int) + g ∧
      emitted r.trace = (List.range g).map sampler ∧
      decodedBatches r.trace = markLast (prefillAdds 0 ts).1 ::
        (List.range g).map (fun j =>
          [{ token := sampler j, pos := (ts.length : Int) + (j : Int), seq := 0,
             logits := true }]) := by
  rcases session_cases _ _ _ _ _ _ _ _ hr with
    ⟨-, rfl⟩ | ⟨-, h0, -⟩ | ⟨-, -, e, st1, hl, rfl⟩
  · exact absurd rfl hne
  · exact absurd (hdec 0) h0
  · have hinit : ∃ g : Nat, (initState n_ctx ts).n_decode = g ∧
        (initState n_ctx ts).n_cur = (ts.length : Int) + g ∧
        (initState n_ctx ts).samples = g ∧
        emitted (initState n_ctx ts).trace = (List.range g).map sampler ∧
        decodedBatches (initState n_ctx ts).trace = markLast (prefillAdds 0 ts).1 ::
          (List.range g).map (fun j =>
            [{ token := sampler j, pos := (ts.length : Int) + (j : Int), seq := 0,
               logits := true }]) :=
      ⟨0, by simp [initState], by simp [initState_n_cur], by simp [initState],
        by simp [initState_emitted], by simp [initState_decodedBatches]⟩
    rcases generationLoop_end n_len eos sampler decodeRet
        (fun st => ∃ g : Nat, st.n_decode = g ∧ st.n_cur = (ts.length : Int) + g ∧
          st.samples = g ∧ emitted st.trace = (List.range g).map sampler ∧
          decodedBatches st.trace = markLast (prefillAdds 0 ts).1 ::
            (List.range g).map (fun j =>
              [{ token := sampler j, pos := (ts.length : Int) + (j : Int), seq := 0,
                 logits := true }]))
        (fun st hst _ _ => by
          obtain ⟨g, h1, h2, h3, h4, h5⟩ := hst
          refine ⟨g + 1, ?_, ?_, ?_, ?_, ?_⟩
          · simp only [stepState, h1]; push_cast; ring
          · simp only [stepState, h2]; push_cast; ring
          · simp only [stepState, h3]
          · rw [stepState_emitted, h4, h3, List.range_succ, List.map_append]; rfl
          · rw [stepState_decodedBatches, h5, h3, h2, List.range_succ, List.map_append]
            rfl)
        fuel _ e st1 hl hinit with
      ⟨rfl, ⟨g, h1, h2, -, h4, h5⟩, -⟩ | ⟨rfl, h, ⟨g, h1, h2, -, h4, h5⟩, rfl, -⟩ |
      ⟨rfl, -, h, -, hd, -⟩
    · refine ⟨g, h1, h2, ?_, ?_⟩
      · simpa [emitted_append, teardown_observed.1] using h4
      · simpa [teardown_decodedBatches] using h5
    · refine ⟨g, by simpa [stopState] using h1, by simpa [stopState] using h2, ?_, ?_⟩
      · simpa [emitted_append, teardown_observed.1, stopState_emitted] using h4
      · simpa [teardown_decodedBatches, stopState_decodedBatches] using h5
    · exact absurd (hdec _) hd

/-- C15: every session whose decode calls succeed ends (any fuel above
`n_len + 1 - prompt_token_count` is enough) and, when it passes the capacity check,
with `g` the number of tokens it generated: each decode call after the prefill
submits a batch of exactly one entry, the `j`-th one holding the `j`-th sampled and
written token at position `prompt_token_count + j`, in sequence 0 with `emit_logits`
true; the positions submitted over the session are `0, 1, 2, ...` up to
`prompt_token_count + g - 1`, with no gap and no repeat; at the `k`-th evaluation of
the loop condition the cursor is `prompt_token_count + k` and `n_decode` is `k`, so
the cursor advances by exactly one per iteration and `n_cur = prompt_token_count +
n_decode` holds at every loop head, and at the end of the session. -/
theorem decode_positions (n_len n_ctx : Int) (eos : Token) (tokens_list : List Token)
    (sampler : Nat → Token) (decodeRet : Nat → Int) (hdec : ∀ k, decodeRet k = 0) :
    (∀ fuel, (n_len + 1 - tokens_list.length).toNat < fuel →
      ∃ r, session n_len n_ctx eos tokens_list sampler decodeRet fuel = some r) ∧
    ∀ fuel r, session n_len n_ctx eos tokens_list sampler decodeRet fuel = some r →
      r.ending ≠ SessionEnd.capacityError →
      ∃ g : Nat, r.n_decode = g ∧ r.n_cur = (tokens_list.length : Int) + g ∧
        emitted r.trace = (List.range g).map sampler ∧
        (decodedBatches r.trace).tail = (List.range g).map (fun j =>
          [{ token := sampler j, pos := (tokens_list.length : Int) + (j : Int), seq := 0,
             logits := true }]) ∧
        submittedPositions r.trace
          = List.map Int.ofNat (List.range (tokens_list.length + g)) ∧
        (∀ (k : Nat) (h : LoopState),
          (loopHeads n_len eos sampler decodeRet fuel (initState n_ctx tokens_list))[k]?
              = some h →
            h.n_cur = (tokens_list.length : Int) + k ∧ h.n_decode = k ∧
              h.n_cur = (tokens_list.length : Int) + h.n_decode) ∧
        ∃ h, h ∈ loopHeads n_len eos sampler decodeRet fuel (initState n_ctx tokens_list) ∧
          r.n_cur = h.n_cur ∧ r.n_decode = h.n_decode := by
  refine ⟨fun fuel hf => session_total _ _ _ _ _ _ fuel hf, ?_⟩
  intro fuel r hr hne
  obtain ⟨g, h1, h2, h3, h4⟩ :=
    session_positions n_len n_ctx eos tokens_list sampler decodeRet hdec fuel r hr hne
  refine ⟨g, h1, h2, h3, ?_, ?_, ?_, ?_⟩
  · rw [h4]; rfl
  · unfold submittedPositions
    rw [h4, List.flatten_cons, List.map_append, prefill_batch_positions,
      flatten_map_singleton, List.map_map, List.range_add, List.map_append, List.map_map]
    congr 1
  · intro k h hk
    obtain ⟨a, b⟩ := loopHeads_getElem? _ _ _ _ _ _ k h hk
    rw [initState_n_cur] at a
    have b2 : h.n_decode = k := by simpa [initState] using b
    exact ⟨a, b2, by rw [a, b2]⟩
  · rcases session_cases _ _ _ _ _ _ _ _ hr with
      ⟨-, rfl⟩ | ⟨-, h0, -⟩ | ⟨-, -, e, st1, hl, rfl⟩
    · exact absurd rfl hne
    · exact absurd (hdec 0) h0
    · have hnf : e ≠ SessionEnd.decodeFailed := by
        intro he
        subst he
        rcases generationLoop_end n_len eos sampler decodeRet (fun _ => True)
            (fun _ _ _ _ => trivial) fuel _ _ st1 hl trivial with
          ⟨h, -⟩ | ⟨h, -⟩ | ⟨-, -, x, -, hd, -⟩
        · cases h
        · cases h
        · exact hd (hdec _)
      exact generationLoop_last_head _ _ _ _ _ _ _ _ hl hnf

/-- Witness for C15: three prompt tokens, `n_len = 5`, `n_ctx = 8`, every decode call
succeeding. -/
theorem decode_positions_witness :
    ∃ r, session 5 8 2 [10, 11, 12] (fun _ => 7) (fun _ => 0) 10 = some r ∧
      r.ending ≠ SessionEnd.capacityError ∧
      ∃ g : Nat, r.n_decode = g ∧ r.n_cur = (([10, 11, 12] : List Token).length : Int) + g ∧
        emitted r.trace = (List.range g).map (fun _ => (7 : Token)) ∧
        (decodedBatches r.trace).tail = (List.range g).map (fun j =>
          [{ token := (7 : Token),
             pos := (([10, 11, 12] : List Token).length : Int) + (j : Int), seq := 0,
             logits := true }]) ∧
        submittedPositions r.trace
          = List.map Int.ofNat (List.range (([10, 11, 12] : List Token).length + g)) ∧
        (∀ (k : Nat) (h : LoopState),
          (loopHeads 5 2 (fun _ => 7) (fun _ => 0) 10 (initState 8 [10, 11, 12]))[k]?
              = some h →
            h.n_cur = (([10, 11, 12] : List Token).length : Int) + k ∧ h.n_decode = k ∧
              h.n_cur = (([10, 11, 12] : List Token).length : Int) + h.n_decode) ∧
        ∃ h, h ∈ loopHeads 5 2 (fun _ => 7) (fun _ => 0) 10 (initState 8 [10, 11, 12]) ∧
          r.n_cur = h.n_cur ∧ r.n_decode = h.n_decode := by
  have key := decode_positions 5 8 2 [10, 11, 12] (fun _ => 7) (fun _ => 0) (fun _ => rfl)
  obtain ⟨r, hr⟩ := key.1 10 (by decide)
  have hend : r.ending ≠ SessionEnd.capacityError := by
    intro hce
    have h2 : (session 5 8 2 [10, 11, 12] (fun _ => 7) (fun _ => 0) 10).map
        (fun r => r.ending) = some SessionEnd.stopped := by decide
    rw [hr] at h2
    simp only [Option.map_some', Option.some.injEq] at h2
    rw [hce] at h2
    cases h2
  exact ⟨r, hr, hend, key.2 10 r hr hend⟩

/-! ## A failing prefill, and the timing report -/

/-- C4 (as stated, refuted): with three prompt tokens, `n_len = 3` and `n_ctx = 8`
the capacity check passes; when the prefill decode returns 1, `main` returns 1 at
line 116: the loop is never entered, no token is sampled and no stop check is made. -/
theorem prefill_failure_skips_loop :
    ((([10, 11, 12] : List Token).length : Int) = 3 ∧ (3 : Int) ≤ 8) ∧
    (session 3 8 2 [10, 11, 12] (fun _ => 7) (fun _ => 1) 4).map
        (fun r => (r.ending, sampleCalls r.trace, decodeCalls r.trace))
      = some (SessionEnd.prefillFailed, 0, 1) := by
  decide

end MultiplePrompts
